import Mathlib

/-!
Shallow embedding of the SMBX2-Episode-Updater merge core
(`src/zip_merge.py`, plus the `do_update` flow of `src/smbx2_episode_updater.py`).

Modelling conventions:
* A relative path is a list of path segments (`RelPath`); the code's
  `str(p.relative_to(root)).replace("\\", "/")` corresponds to joining the
  segments with `"/"` (`relStr`).
* An inventory (`inventory_hashes` result, a Python `dict` in insertion
  order) is an association list from relative path to content hash with
  distinct keys.
* An install tree is its file inventory together with the list of
  directories (relative paths) currently existing under the install root;
  the root itself is the empty path `[]` and is not a member of `dirs`.
* Machinery that touches the real filesystem during execution
  (`src.exists()`, `shutil.copy2` raising, `dst.unlink` raising, the
  progress callback raising) is an explicit execution environment
  (`ExecEnv`); an uncaught Python exception is `Except.error` carrying the
  partially-mutated state.
* `fnmatch.fnmatch` is modelled for the `*` / `?` / literal core (no `[...]`
  classes, which the updater's patterns never use); fuel-based recursion is
  used so the function reduces in the kernel, with fuel `|pat| + |s|`,
  which the recursion never exhausts.
-/

namespace ZipMerge

abbrev Seg := String
abbrev RelPath := List Seg
abbrev Hash := String

/-- Association-list inventory: relative path to content hash, insertion order. -/
abbrev Inv := List (RelPath × Hash)

/-- Join path segments with "/" as `str(p.relative_to(root)).replace("\\", "/")` does. -/
def relStr : RelPath → String
  | [] => ""
  | [a] => a
  | a :: rest => a ++ "/" ++ relStr rest

/-- Length of the "/"-joined relative path string; the cleanup pass of
`merge_stage_into_install` sorts by `len(str(x))`, whose relative order on
paths under a fixed root is the order of this quantity. -/
def strLen (p : RelPath) : Nat := (relStr p).length

/-- Core of `fnmatch.fnmatch`: `*` matches any run of characters (including
`/`), `?` any single character, other characters literally. Fuel-based so
that it evaluates by kernel reduction; `patLen + strLen` fuel always
suffices. -/
def globMatchF : Nat → List Char → List Char → Bool
  | 0, p, s => p.isEmpty && s.isEmpty
  | _ + 1, [], [] => true
  | _ + 1, [], _ :: _ => false
  | f + 1, '*' :: ps, [] => globMatchF f ps []
  | _ + 1, _ :: _, [] => false
  | f + 1, '*' :: ps, c :: cs => globMatchF f ps (c :: cs) || globMatchF f ('*' :: ps) cs
  | f + 1, '?' :: _ps, _c :: cs => globMatchF f _ps cs
  | f + 1, p :: ps, c :: cs => p == c && globMatchF f ps cs

def fnmatchB (pat s : String) : Bool :=
  globMatchF (pat.data.length + s.data.length + 1) pat.data s.data

/-- `_glob_preserved(path, globs, base)`: the install-relative path matches
some preserve pattern. -/
def glob_preserved (rel : RelPath) (globs : List String) : Bool :=
  globs.any (fun g => fnmatchB g (relStr rel))

/-- `dict.get` / `in` on an inventory. -/
def lookupInv (m : Inv) (rel : RelPath) : Option Hash :=
  match m with
  | [] => none
  | (r, h) :: rest => if r = rel then some h else lookupInv rest rel

def containsInv (m : Inv) (rel : RelPath) : Bool := (lookupInv m rel).isSome

/-- Overwrite-or-create a file entry (`shutil.copy2` to `install_dir / rel`):
an existing entry is updated in place, a new one appended. -/
def insertInv (m : Inv) (rel : RelPath) (h : Hash) : Inv :=
  match m with
  | [] => [(rel, h)]
  | (r, h') :: rest => if r = rel then (rel, h) :: rest else (r, h') :: insertInv rest rel h

/-- Remove a file entry (`dst.unlink()`); drops every entry with that key
(on a well-formed inventory there is exactly one). -/
def eraseInv (m : Inv) (rel : RelPath) : Inv :=
  match m with
  | [] => []
  | (r, h') :: rest => if r = rel then eraseInv rest rel else (r, h') :: eraseInv rest rel

def keysNodup (m : Inv) : Prop := (m.map Prod.fst).Nodup

instance (m : Inv) : Decidable (keysNodup m) :=
  inferInstanceAs (Decidable (m.map Prod.fst).Nodup)

/-- All nonempty strict prefixes of a path: the chain of parent directories
created by `dst.parent.mkdir(parents=True, exist_ok=True)`. -/
def strictPrefixes : RelPath → List RelPath
  | [] => []
  | [_] => []
  | a :: rest => [a] :: (strictPrefixes rest).map (a :: ·)

/-- A directory tree under a root: file inventory plus existing directories
(relative paths, root `[]` excluded). -/
structure Tree where
  files : Inv
  dirs : List RelPath
deriving DecidableEq, Repr

/-- Well-formedness of a tree as produced by a real filesystem walk. -/
structure WF (t : Tree) : Prop where
  filesNodup : keysNodup t.files
  dirsNodup : t.dirs.Nodup
  filesNonempty : ∀ p ∈ t.files.map Prod.fst, p ≠ []
  dirsNonempty : ∀ d ∈ t.dirs, d ≠ []
  filesClosed : ∀ p ∈ t.files.map Prod.fst, ∀ q ∈ strictPrefixes p, q ∈ t.dirs
  dirsClosed : ∀ d ∈ t.dirs, ∀ q ∈ strictPrefixes d, q ∈ t.dirs

/-- `mkdir(parents=True, exist_ok=True)` on a file's parent: add every missing
ancestor directory. -/
def addParents (dirs : List RelPath) (rel : RelPath) : List RelPath :=
  (strictPrefixes rel).foldl (fun ds q => if q ∈ ds then ds else ds ++ [q]) dirs

inductive Phase
  | write
  | delete
deriving DecidableEq, Repr

/-- The merge plan of `merge_stage_into_install` (zip_merge.py lines 147-161):
for every stage entry not preserved, a `write` when absent from the target or
present with a different hash; then for every target entry absent from stage
and not preserved, a `delete`. -/
def planOps (stage_map target_map : Inv) (preserve : List String) :
    List (Phase × RelPath) :=
  stage_map.filterMap (fun fh =>
    if glob_preserved fh.1 preserve then none
    else
      match lookupInv target_map fh.1 with
      | none => some (Phase.write, fh.1)
      | some old => if old ≠ fh.2 then some (Phase.write, fh.1) else none)
  ++ target_map.filterMap (fun fh =>
    if lookupInv stage_map fh.1 = none then
      if glob_preserved fh.1 preserve then none else some (Phase.delete, fh.1)
    else none)

/-- One progress-callback invocation `on_progress(phase, rel, idx, total)`. -/
structure Event where
  phase : Phase
  rel : RelPath
  idx : Nat
  total : Nat
deriving DecidableEq, Repr

structure ExecState where
  tree : Tree
  changed : List RelPath
  events : List Event
deriving DecidableEq, Repr

/-- The parts of the world read (or raised) during execution: the stage tree
at execution time, whether `shutil.copy2` / `dst.unlink` raise for a given
path, and the supplied progress callback (which may itself raise). -/
structure ExecEnv where
  stageAt : RelPath → Option Hash
  copyRaises : RelPath → Bool
  unlinkRaises : RelPath → Bool
  cb : Event → Except Unit Unit

/-- `if on_progress: try: on_progress(...) except Exception: logger.debug(...)`
— the callback is invoked and any exception it raises is caught, so execution
continues identically in both cases. -/
def notifyProgress (env : ExecEnv) (s : ExecState) (ev : Event) : ExecState :=
  match env.cb ev with
  | .ok _ => { s with events := s.events ++ [ev] }
  | .error _ => { s with events := s.events ++ [ev] }

/-- The execution loop of `merge_stage_into_install` (lines 167-190).
A `write` first creates the parent directories, then copies only if the
source still exists; an exception from the copy itself is uncaught
(`Except.error` with the partially-mutated state). A `delete` unlinks an
existing file inside `try/except`, so its failure only skips the `changed`
entry. `idx` is incremented and the callback notified after every operation
that did not abort. -/
def execOps (env : ExecEnv) (total : Nat) :
    List (Phase × RelPath) → Nat → ExecState → Except ExecState ExecState
  | [], _, s => .ok s
  | (Phase.write, rel) :: rest, idx, s =>
    let t1 : Tree := { s.tree with dirs := addParents s.tree.dirs rel }
    match env.stageAt rel with
    | some h =>
      if env.copyRaises rel then .error { s with tree := t1 }
      else
        let s1 : ExecState :=
          { tree := { files := insertInv t1.files rel h, dirs := t1.dirs },
            changed := s.changed ++ [rel], events := s.events }
        execOps env total rest (idx + 1)
          (notifyProgress env s1 ⟨Phase.write, rel, idx + 1, total⟩)
    | none =>
      execOps env total rest (idx + 1)
        (notifyProgress env { s with tree := t1 } ⟨Phase.write, rel, idx + 1, total⟩)
  | (Phase.delete, rel) :: rest, idx, s =>
    let s1 : ExecState :=
      if containsInv s.tree.files rel then
        if env.unlinkRaises rel then s
        else
          { s with tree := { files := eraseInv s.tree.files rel, dirs := s.tree.dirs },
                   changed := s.changed ++ [rel] }
      else s
    execOps env total rest (idx + 1)
      (notifyProgress env s1 ⟨Phase.delete, rel, idx + 1, total⟩)

/-- A directory is empty when `next(p.iterdir())` raises `StopIteration`:
no file and no directory has it as immediate parent. -/
def isEmptyDir (t : Tree) (d : RelPath) : Bool :=
  t.files.all (fun fh => decide (fh.1.dropLast ≠ d)) &&
    t.dirs.all (fun d' => decide (d'.dropLast ≠ d))

/-- One iteration of the cleanup loop: `if p.is_dir(): ... p.rmdir()` guarded
by emptiness (`rmdir` on a non-empty directory raises and is caught). -/
def cleanupStep (t : Tree) (d : RelPath) : Tree :=
  if d ∈ t.dirs ∧ isEmptyDir t d then { t with dirs := t.dirs.erase d } else t

/-- Order of `sorted(install_dir.rglob("*"), key=lambda x: len(str(x)), reverse=True)`
restricted to directories: longer joined path first. -/
def lenGE (a b : RelPath) : Prop := strLen b ≤ strLen a

instance : DecidableRel lenGE := fun a b => Nat.decLe (strLen b) (strLen a)

instance : IsTotal RelPath lenGE := ⟨fun a b => Nat.le_total (strLen b) (strLen a)⟩

instance : IsTrans RelPath lenGE := ⟨fun _ _ _ h1 h2 => Nat.le_trans h2 h1⟩

/-- Empty-folder cleanup of `merge_stage_into_install` (lines 192-201): walk a
snapshot of all directories, longest path string first, removing each one
found empty at its turn. -/
def cleanup (t : Tree) : Tree :=
  (List.insertionSort lenGE t.dirs).foldl cleanupStep t

structure MergeResult where
  tree : Tree
  changed : List RelPath
  events : List Event
deriving DecidableEq, Repr

/-- `merge_stage_into_install(stage, install_dir, preserve, on_progress)`:
plan from the two inventories, execute the plan, then prune empty
directories. The returned `changed` list is the code's return value; `tree`
and `events` expose the final install state and the callback invocations. -/
def merge_stage_into_install (env : ExecEnv) (stage_map : Inv) (install : Tree)
    (preserve : List String) : Except ExecState MergeResult :=
  let ops := planOps stage_map install.files preserve
  match execOps env ops.length ops 0 ⟨install, [], []⟩ with
  | .error s => .error s
  | .ok s => .ok ⟨cleanup s.tree, s.changed, s.events⟩

/-- `Path.suffix.lower() == ".wld"`: the name ends (case-insensitively) in
`".wld"` and has a nonempty stem (`Path(".wld").suffix` is empty). -/
def suffixIsWld (name : String) : Bool :=
  (".wld".data.isSuffixOf (name.data.map Char.toLower)) && decide (4 < name.data.length)

/-- `rglob("*.wld")` name match.  `pathlib` pattern matching folds case on the
host the updater targets (Windows), consistently with the explicit `.lower()`
of the top-level check; `*` may match the empty string, so a bare `".wld"`
also matches. -/
def rglobIsWld (name : String) : Bool :=
  ".wld".data.isSuffixOf (name.data.map Char.toLower)

def lastName (p : RelPath) : String := p.getLastD ("")

/-- Candidate order for `candidates.sort(key=lambda x: x[0])`: by depth,
stable (Python's sort is stable, and `List.insertionSort` with `≤` on the
key preserves the order of equal keys). -/
def depthLE (a b : Nat × RelPath) : Prop := a.1 ≤ b.1

instance : DecidableRel depthLE := fun a b => Nat.decLe a.1 b.1

instance : IsTotal (Nat × RelPath) depthLE := ⟨fun a b => Nat.le_total a.1 b.1⟩

instance : IsTrans (Nat × RelPath) depthLE := ⟨fun _ _ _ h1 h2 => Nat.le_trans h1 h2⟩

/-- The `(depth, parent)` candidate pairs collected from `stage.rglob("*.wld")`
(which walks files and directories alike), with `depth = len(rel.parts)`. -/
def wldCandidates (t : Tree) : List (Nat × RelPath) :=
  (t.files.map Prod.fst ++ t.dirs).filterMap (fun p =>
    if rglobIsWld (lastName p) then some (p.length, p.dropLast) else none)

/-- `find_episode_root(stage)` (zip_merge.py lines 71-108), returning the
root-relative path of the chosen directory (`[]` = the stage root itself).
The top-level check looks only at files directly in the root; the subtree
search ranks every `rglob("*.wld")` match by `len(rel.parts)` and takes the
parent of the first shallowest candidate of a stable sort. -/
def find_episode_root (t : Tree) : RelPath :=
  if t.files.any (fun fh => decide (fh.1.length = 1) && suffixIsWld (lastName fh.1)) then
    []
  else
    match List.insertionSort depthLE (wldCandidates t) with
    | [] => []
    | c :: _ => c.2

/-! ## `safe_join` and extraction traversal safety

Absolute filesystem paths are modelled as segment lists from the filesystem
root; `str(p)` of such a path is `"/" ++ relStr p` (POSIX form). -/

abbrev AbsPath := List Seg

def absStr (p : AbsPath) : String := "/" ++ relStr p

/-- Split a zip entry name on `/` (zip names use forward slashes). -/
def splitSlashAux : List Char → List Char → List (List Char)
  | cur, [] => [cur.reverse]
  | cur, c :: rest =>
    if c = '/' then cur.reverse :: splitSlashAux [] rest
    else splitSlashAux (c :: cur) rest

def splitSlash (s : String) : List String :=
  (splitSlashAux [] s.data).map (fun l => ⟨l⟩)

/-- `Path.resolve()` applied to `acc` extended with further raw segments:
`..` pops one segment (stopping at the filesystem root), `.` and empty
segments vanish. -/
def resolveSegs (acc : AbsPath) : List Seg → AbsPath
  | [] => acc
  | s :: rest =>
    if s = ".." then resolveSegs acc.dropLast rest
    else if s = "." ∨ s = "" then resolveSegs acc rest
    else resolveSegs (acc ++ [s]) rest

def strStartsWith (s pre : String) : Bool := pre.data.isPrefixOf s.data

/-- `safe_join(base, name)` (zip_merge.py lines 14-19): join (a name starting
with `/` replaces the base, as `Path.__truediv__` does with an absolute
part), resolve, then compare *strings*:
`if not str(p).startswith(str(base.resolve())): raise`. -/
def safe_join (base : AbsPath) (name : String) : Except String AbsPath :=
  let p : AbsPath :=
    if strStartsWith name ("/") then resolveSegs [] (splitSlash name)
    else resolveSegs base (splitSlash name)
  if strStartsWith (absStr p) (absStr base) then .ok p
  else .error ("Blocked path traversal while extracting")

/-- `p` stays inside the directory `base`. -/
def isUnder (base p : AbsPath) : Bool := base.isPrefixOf p

/-! ## `do_update` backup-before-merge flow

`do_update` (smbx2_episode_updater.py lines 304-315): when the install
directory already exists, `create_backup` runs strictly before
`merge_stage_into_install`, and an exception from it propagates (there is no
surrounding `try`), so the merge is never reached. `create_backup` archives
every regular file under the install root with install-relative arcnames;
its content is therefore the install file inventory at call time. -/

/-- `create_backup(install_dir)`: the produced archive's content, or an
uncaught exception (`logger.error` then `raise`). -/
def create_backup (install : Tree) (backupRaises : Bool) : Except Unit Inv :=
  if backupRaises then .error () else .ok install.files

/-- The merge phase of `do_update` for an already-existing install directory:
backup first (its failure aborts with the install untouched — the merge is
never invoked), then merge. Returns the backup content and the merge outcome. -/
def do_update_existing (env : ExecEnv) (stage_map : Inv) (install : Tree)
    (preserve : List String) (backupRaises : Bool) :
    Except Unit (Inv × Except ExecState MergeResult) :=
  match create_backup install backupRaises with
  | .error e => .error e
  | .ok backup => .ok (backup, merge_stage_into_install env stage_map install preserve)

/-! ## Basic inventory lemmas -/

theorem lookupInv_eq_none_iff {m : Inv} {rel : RelPath} :
    lookupInv m rel = none ↔ rel ∉ m.map Prod.fst := by
  induction m with
  | nil => simp [lookupInv]
  | cons fh rest ih =>
    obtain ⟨r, h⟩ := fh
    by_cases hr : r = rel
    · subst hr; simp [lookupInv]
    · simp [lookupInv, hr, ih, Ne.symm hr]

theorem lookupInv_mem {m : Inv} {rel : RelPath} {h : Hash}
    (hl : lookupInv m rel = some h) : (rel, h) ∈ m := by
  induction m with
  | nil => simp [lookupInv] at hl
  | cons fh rest ih =>
    obtain ⟨r, h'⟩ := fh
    by_cases hr : r = rel
    · subst hr
      simp [lookupInv] at hl
      simp [hl]
    · simp [lookupInv, hr] at hl
      exact List.mem_cons_of_mem _ (ih hl)

theorem mem_lookupInv {m : Inv} {rel : RelPath} {h : Hash}
    (hm : (rel, h) ∈ m) (hnd : keysNodup m) : lookupInv m rel = some h := by
  induction m with
  | nil => simp at hm
  | cons fh rest ih =>
    obtain ⟨r, h'⟩ := fh
    have hnd' : r ∉ rest.map Prod.fst ∧ keysNodup rest := by
      simpa [keysNodup] using hnd
    rcases List.mem_cons.mp hm with heq | htail
    · injection heq with h1 h2
      subst h1
      subst h2
      simp [lookupInv]
    · have hr : r ≠ rel := by
        intro hcontra
        exact hnd'.1 (List.mem_map.mpr ⟨(rel, h), htail, hcontra ▸ rfl⟩)
      simp [lookupInv, hr, ih htail hnd'.2]

theorem lookupInv_insert_self {m : Inv} {rel : RelPath} {h : Hash} :
    lookupInv (insertInv m rel h) rel = some h := by
  induction m with
  | nil => simp [insertInv, lookupInv]
  | cons fh rest ih =>
    obtain ⟨r, h'⟩ := fh
    by_cases hr : r = rel
    · simp [insertInv, hr, lookupInv]
    · simp [insertInv, hr, lookupInv, ih]

theorem lookupInv_insert_ne {m : Inv} {rel rel' : RelPath} {h : Hash}
    (hne : rel' ≠ rel) : lookupInv (insertInv m rel h) rel' = lookupInv m rel' := by
  have hne' : ¬ rel = rel' := fun hc => hne hc.symm
  induction m with
  | nil => simp [insertInv, lookupInv, hne']
  | cons fh rest ih =>
    obtain ⟨r, h'⟩ := fh
    by_cases hr : r = rel
    · subst hr
      simp [insertInv, lookupInv, hne']
    · by_cases hr' : r = rel'
      · simp [insertInv, hr, lookupInv, hr', hne]
      · simp [insertInv, hr, lookupInv, hr', ih]

theorem lookupInv_erase_self {m : Inv} {rel : RelPath} :
    lookupInv (eraseInv m rel) rel = none := by
  induction m with
  | nil => simp [eraseInv, lookupInv]
  | cons fh rest ih =>
    obtain ⟨r, h'⟩ := fh
    by_cases hr : r = rel
    · simpa [eraseInv, hr] using ih
    · simpa [eraseInv, hr, lookupInv] using ih

theorem lookupInv_erase_ne {m : Inv} {rel rel' : RelPath}
    (hne : rel' ≠ rel) : lookupInv (eraseInv m rel) rel' = lookupInv m rel' := by
  induction m with
  | nil => simp [eraseInv, lookupInv]
  | cons fh rest ih =>
    obtain ⟨r, h'⟩ := fh
    by_cases hr : r = rel
    · subst hr
      have hne' : ¬ r = rel' := fun hc => hne (hc ▸ rfl)
      simpa [eraseInv, lookupInv, hne'] using ih
    · by_cases hr' : r = rel'
      · simp [eraseInv, lookupInv, hr, hr', hne]
      · simp [eraseInv, lookupInv, hr, hr', ih]

theorem keys_insertInv {m : Inv} {rel p : RelPath} {h : Hash} :
    p ∈ (insertInv m rel h).map Prod.fst ↔ p ∈ m.map Prod.fst ∨ p = rel := by
  induction m with
  | nil => simp [insertInv]
  | cons fh rest ih =>
    obtain ⟨r, h'⟩ := fh
    by_cases hr : r = rel
    · subst hr
      simp [insertInv]
      tauto
    · simp [insertInv, hr, ih]
      tauto

theorem keysNodup_insertInv {m : Inv} {rel : RelPath} {h : Hash}
    (hnd : keysNodup m) : keysNodup (insertInv m rel h) := by
  induction m with
  | nil => simp [insertInv, keysNodup]
  | cons fh rest ih =>
    obtain ⟨r, h'⟩ := fh
    have hnd' : r ∉ rest.map Prod.fst ∧ keysNodup rest := by
      simpa [keysNodup] using hnd
    by_cases hr : r = rel
    · subst hr
      simpa [insertInv, keysNodup] using hnd'
    · have : rel ∈ rest.map Prod.fst ∨ rel = rel := Or.inr rfl
      simp only [insertInv, if_neg hr, keysNodup, List.map_cons, List.nodup_cons]
      refine ⟨fun hc => ?_, ih hnd'.2⟩
      rcases keys_insertInv.mp hc with hc' | hc'
      · exact hnd'.1 hc'
      · exact hr hc'

theorem keys_eraseInv_subset {m : Inv} {rel p : RelPath}
    (hp : p ∈ (eraseInv m rel).map Prod.fst) : p ∈ m.map Prod.fst := by
  induction m with
  | nil => simp [eraseInv] at hp
  | cons fh rest ih =>
    obtain ⟨r, h'⟩ := fh
    by_cases hr : r = rel
    · simp only [eraseInv, if_pos hr] at hp
      exact List.mem_cons_of_mem _ (ih hp)
    · simp only [eraseInv, if_neg hr, List.map_cons, List.mem_cons] at hp ⊢
      rcases hp with hp | hp
      · exact Or.inl hp
      · exact Or.inr (ih hp)

theorem keysNodup_eraseInv {m : Inv} {rel : RelPath}
    (hnd : keysNodup m) : keysNodup (eraseInv m rel) := by
  induction m with
  | nil => simpa [eraseInv] using hnd
  | cons fh rest ih =>
    obtain ⟨r, h'⟩ := fh
    have hnd' : r ∉ rest.map Prod.fst ∧ keysNodup rest := by
      simpa [keysNodup] using hnd
    by_cases hr : r = rel
    · simp only [eraseInv, if_pos hr]
      exact ih hnd'.2
    · simp only [eraseInv, if_neg hr, keysNodup, List.map_cons, List.nodup_cons]
      exact ⟨fun hc => hnd'.1 (keys_eraseInv_subset hc), ih hnd'.2⟩

/-! ## Strict-prefix (ancestor directory) lemmas -/

@[simp] theorem strictPrefixes_nil : strictPrefixes ([] : RelPath) = [] := rfl

@[simp] theorem strictPrefixes_single (a : Seg) : strictPrefixes [a] = [] := rfl

@[simp] theorem strictPrefixes_cons2 (a b : Seg) (rs : List Seg) :
    strictPrefixes (a :: b :: rs) = [a] :: (strictPrefixes (b :: rs)).map (a :: ·) := rfl

theorem strictPrefixes_spec : ∀ {p q : RelPath},
    q ∈ strictPrefixes p → q ≠ [] ∧ ∃ c s, p = q ++ c :: s
  | [], q, hq => by simp at hq
  | [_], q, hq => by simp at hq
  | a :: b :: rs, q, hq => by
    rw [strictPrefixes_cons2] at hq
    rcases List.mem_cons.mp hq with rfl | hq'
    · exact ⟨by simp, b, rs, rfl⟩
    · obtain ⟨q', hq'', rfl⟩ := List.mem_map.mp hq'
      obtain ⟨hne, c, s, heq⟩ := strictPrefixes_spec hq''
      exact ⟨by simp, c, s, by simp [heq]⟩

theorem strictPrefixes_ne_nil {p q : RelPath} (hq : q ∈ strictPrefixes p) : q ≠ [] :=
  (strictPrefixes_spec hq).1

theorem mem_strictPrefixes_of : ∀ (q : RelPath) (s : List Seg),
    q ≠ [] → s ≠ [] → q ∈ strictPrefixes (q ++ s)
  | [], _, hq, _ => absurd rfl hq
  | [a], s, _, hs => by
    match s, hs with
    | b :: s', _ => simp
  | a :: b :: q', s, _, hs => by
    have ih := mem_strictPrefixes_of (b :: q') s (by simp) hs
    simp only [List.cons_append]
    rw [strictPrefixes_cons2]
    exact List.mem_cons_of_mem _ (List.mem_map.mpr ⟨b :: q', by simpa using ih, rfl⟩)

theorem mem_strictPrefixes_of_append (q : RelPath) (c : Seg) (s : List Seg)
    (hq : q ≠ []) : q ∈ strictPrefixes (q ++ c :: s) :=
  mem_strictPrefixes_of q (c :: s) hq (by simp)

theorem concat_mem_strictPrefixes (q : RelPath) (c : Seg) {s : List Seg}
    (hs : s ≠ []) : (q ++ [c]) ∈ strictPrefixes (q ++ c :: s) := by
  have h := mem_strictPrefixes_of (q ++ [c]) s (by simp) hs
  simpa using h

theorem strictPrefixes_sub {p q : RelPath} (hq : q ∈ strictPrefixes p) :
    ∀ x ∈ strictPrefixes q, x ∈ strictPrefixes p := by
  intro x hx
  obtain ⟨hqne, c, s, rfl⟩ := strictPrefixes_spec hq
  obtain ⟨hxne, c', s', rfl⟩ := strictPrefixes_spec hx
  have h := mem_strictPrefixes_of x (c' :: (s' ++ c :: s)) hxne (by simp)
  simpa using h

/-! ## String-length ordering lemmas -/

theorem relStr_cons (a : Seg) {rest : RelPath} (h : rest ≠ []) :
    relStr (a :: rest) = a ++ "/" ++ relStr rest := by
  match rest, h with
  | b :: rs, _ => rfl

theorem strLen_cons (a : Seg) {rest : RelPath} (h : rest ≠ []) :
    strLen (a :: rest) = a.length + 1 + strLen rest := by
  simp [strLen, relStr_cons a h, String.length_append, show ("/").length = 1 from rfl]
  try omega

theorem strLen_lt_concat : ∀ (d : RelPath) (c : Seg), d ≠ [] → strLen d < strLen (d ++ [c])
  | [], _, hne => absurd rfl hne
  | [a], c, _ => by
    have h2 : strLen [a, c] = a.length + 1 + strLen [c] := strLen_cons a (by simp)
    have h3 : strLen [c] = c.length := rfl
    have h1 : strLen [a] = a.length := rfl
    simp only [List.cons_append, List.nil_append]
    omega
  | a :: b :: ds, c, _ => by
    have ih := strLen_lt_concat (b :: ds) c (by simp)
    have h1 : strLen (a :: b :: ds) = a.length + 1 + strLen (b :: ds) :=
      strLen_cons a (by simp)
    have h2 : strLen (a :: (b :: ds ++ [c])) = a.length + 1 + strLen (b :: ds ++ [c]) :=
      strLen_cons a (by simp)
    simp only [List.cons_append] at ih h2 ⊢
    omega

/-! ## `addParents` lemmas -/

theorem mem_addParents {dirs : List RelPath} {rel x : RelPath} :
    x ∈ addParents dirs rel ↔ x ∈ dirs ∨ x ∈ strictPrefixes rel := by
  unfold addParents
  generalize strictPrefixes rel = l
  induction l generalizing dirs with
  | nil => simp
  | cons q rest ih =>
    simp only [List.foldl_cons]
    by_cases hq : q ∈ dirs
    · rw [if_pos hq, ih]
      constructor
      · rintro (h | h)
        · exact Or.inl h
        · exact Or.inr (List.mem_cons_of_mem _ h)
      · rintro (h | h)
        · exact Or.inl h
        · rcases List.mem_cons.mp h with rfl | h'
          · exact Or.inl hq
          · exact Or.inr h'
    · rw [if_neg hq, ih]
      constructor
      · rintro (h | h)
        · rcases List.mem_append.mp h with h' | h'
          · exact Or.inl h'
          · exact Or.inr (List.mem_cons.mpr (Or.inl (by simpa using h')))
        · exact Or.inr (List.mem_cons_of_mem _ h)
      · rintro (h | h)
        · exact Or.inl (List.mem_append.mpr (Or.inl h))
        · rcases List.mem_cons.mp h with rfl | h'
          · exact Or.inl (List.mem_append.mpr (Or.inr (by simp)))
          · exact Or.inr h'

theorem subset_addParents {dirs : List RelPath} {rel : RelPath} :
    ∀ x ∈ dirs, x ∈ addParents dirs rel :=
  fun _ hx => mem_addParents.mpr (Or.inl hx)

theorem addParents_nodup {dirs : List RelPath} {rel : RelPath}
    (h : dirs.Nodup) : (addParents dirs rel).Nodup := by
  unfold addParents
  generalize strictPrefixes rel = l
  induction l generalizing dirs with
  | nil => exact h
  | cons q rest ih =>
    simp only [List.foldl_cons]
    by_cases hq : q ∈ dirs
    · rw [if_pos hq]
      exact ih h
    · rw [if_neg hq]
      refine ih ?_
      simp [List.nodup_append, h, hq]

/-! ## Execution lemmas -/

/-- Because an exception from the progress callback is caught, notifying is a
plain event append regardless of the callback's behaviour. -/
theorem notifyProgress_eq (env : ExecEnv) (s : ExecState) (ev : Event) :
    notifyProgress env s ev = { s with events := s.events ++ [ev] } := by
  unfold notifyProgress
  cases env.cb ev <;> rfl

/-- The state reached by execution, whether it completed or aborted. -/
def outState : Except ExecState ExecState → ExecState
  | .ok s => s
  | .error s => s

theorem execOps_env_ext : ∀ (env env' : ExecEnv),
    env.stageAt = env'.stageAt → env.copyRaises = env'.copyRaises →
    env.unlinkRaises = env'.unlinkRaises →
    ∀ (ops : List (Phase × RelPath)) (total idx : Nat) (s : ExecState),
      execOps env total ops idx s = execOps env' total ops idx s := by
  rintro ⟨sa, cr, ur, cb⟩ ⟨sa', cr', ur', cb'⟩ h1 h2 h3
  simp only at h1 h2 h3
  subst h1
  subst h2
  subst h3
  intro ops
  induction ops with
  | nil => intro total idx s; rfl
  | cons op rest ih =>
    intro total idx s
    obtain ⟨ph, rel⟩ := op
    cases ph with
    | write =>
      simp only [execOps]
      cases sa rel with
      | some h =>
        by_cases hc : cr rel = true
        · simp [hc]
        · simp only [Bool.not_eq_true] at hc
          simp [hc, notifyProgress_eq, ih]
      | none => simp [notifyProgress_eq, ih]
    | delete =>
      simp only [execOps, notifyProgress_eq]
      exact ih total (idx + 1) _

/-- State-to-state relation: path `rel` untouched (same content, not newly in
`changed`), and directories only grow. -/
def Untouched (rel : RelPath) (s s' : ExecState) : Prop :=
  lookupInv s'.tree.files rel = lookupInv s.tree.files rel ∧
  (rel ∉ s.changed → rel ∉ s'.changed) ∧
  (∀ d ∈ s.tree.dirs, d ∈ s'.tree.dirs)

theorem untouched_refl (rel : RelPath) (s : ExecState) : Untouched rel s s :=
  ⟨rfl, fun h => h, fun _ hd => hd⟩

theorem untouched_trans {rel : RelPath} {s1 : ExecState} (s2 : ExecState)
    {s3 : ExecState}
    (h12 : Untouched rel s1 s2) (h23 : Untouched rel s2 s3) : Untouched rel s1 s3 :=
  ⟨h23.1.trans h12.1, fun h => h23.2.1 (h12.2.1 h), fun d hd => h23.2.2 d (h12.2.2 d hd)⟩

/-- An operation list that never mentions `rel` leaves `rel`'s install entry,
its absence from `changed`, and all existing directories intact — whether or
not execution aborts part-way. -/
theorem execOps_untouched (env : ExecEnv) (total : Nat) {rel : RelPath} :
    ∀ (ops : List (Phase × RelPath)) (idx : Nat) (s : ExecState),
      rel ∉ ops.map Prod.snd →
      Untouched rel s (outState (execOps env total ops idx s)) := by
  intro ops
  induction ops with
  | nil => intro idx s _; exact untouched_refl rel s
  | cons op rest ih =>
    intro idx s hmem
    obtain ⟨ph, rel'⟩ := op
    have hne : rel ≠ rel' := by
      intro hc
      exact hmem (by simp [hc])
    have hrest : rel ∉ rest.map Prod.snd := fun hc => hmem (List.mem_cons_of_mem _ hc)
    cases ph with
    | write =>
      simp only [execOps]
      cases env.stageAt rel' with
      | some h =>
        by_cases hc : env.copyRaises rel' = true
        · simp only [hc, if_true]
          exact ⟨rfl, fun h => h, fun d hd => subset_addParents d hd⟩
        · simp only [Bool.not_eq_true] at hc
          simp only [hc, Bool.false_eq_true, if_false, notifyProgress_eq]
          refine untouched_trans (
            { tree := { files := insertInv s.tree.files rel' h,
                        dirs := addParents s.tree.dirs rel' },
              changed := s.changed ++ [rel'],
              events := s.events ++ [⟨Phase.write, rel', idx + 1, total⟩] }) ?_ (ih (idx + 1) _ hrest)
          refine ⟨lookupInv_insert_ne hne, fun hn hc' => ?_, fun d hd => subset_addParents d hd⟩
          rcases List.mem_append.mp hc' with hm | hm
          · exact hn hm
          · exact hne (by simpa using hm)
      | none =>
        simp only [notifyProgress_eq]
        refine untouched_trans (
          { tree := { files := s.tree.files, dirs := addParents s.tree.dirs rel' },
            changed := s.changed,
            events := s.events ++ [⟨Phase.write, rel', idx + 1, total⟩] }) ?_ (ih (idx + 1) _ hrest)
        exact ⟨rfl, fun h => h, fun d hd => subset_addParents d hd⟩
    | delete =>
      simp only [execOps, notifyProgress_eq]
      by_cases hcont : containsInv s.tree.files rel' = true
      · by_cases hu : env.unlinkRaises rel' = true
        · simp only [hcont, hu, if_true]
          refine untouched_trans (
            { s with events := s.events ++ [⟨Phase.delete, rel', idx + 1, total⟩] })
            ⟨rfl, fun h => h, fun _ hd => hd⟩ (ih (idx + 1) _ hrest)
        · simp only [Bool.not_eq_true] at hu
          simp only [hcont, hu, Bool.false_eq_true, if_false, if_true]
          refine untouched_trans (
            { tree := { files := eraseInv s.tree.files rel', dirs := s.tree.dirs },
              changed := s.changed ++ [rel'],
              events := s.events ++ [⟨Phase.delete, rel', idx + 1, total⟩] }) ?_ (ih (idx + 1) _ hrest)
          refine ⟨lookupInv_erase_ne hne, fun hn hc' => ?_, fun _ hd => hd⟩
          rcases List.mem_append.mp hc' with hm | hm
          · exact hn hm
          · exact hne (by simpa using hm)
      · simp only [Bool.not_eq_true] at hcont
        simp only [hcont, Bool.false_eq_true, if_false]
        refine untouched_trans (
          { s with events := s.events ++ [⟨Phase.delete, rel', idx + 1, total⟩] })
          ⟨rfl, fun h => h, fun _ hd => hd⟩ (ih (idx + 1) _ hrest)

/-! ## Well-formedness preservation -/

theorem WF_mkdir {t : Tree} (h : WF t) (rel : RelPath) :
    WF ⟨t.files, addParents t.dirs rel⟩ := by
  refine ⟨h.filesNodup, addParents_nodup h.dirsNodup, h.filesNonempty, ?_, ?_, ?_⟩
  · intro d hd
    rcases mem_addParents.mp hd with hd' | hd'
    · exact h.dirsNonempty d hd'
    · exact strictPrefixes_ne_nil hd'
  · intro p hp q hq
    exact mem_addParents.mpr (Or.inl (h.filesClosed p hp q hq))
  · intro d hd q hq
    rcases mem_addParents.mp hd with hd' | hd'
    · exact mem_addParents.mpr (Or.inl (h.dirsClosed d hd' q hq))
    · exact mem_addParents.mpr (Or.inr (strictPrefixes_sub hd' q hq))

theorem WF_write {t : Tree} (h : WF t) {rel : RelPath} (hrel : rel ≠ []) (hsh : Hash) :
    WF ⟨insertInv t.files rel hsh, addParents t.dirs rel⟩ := by
  have hm := WF_mkdir h rel
  refine ⟨keysNodup_insertInv h.filesNodup, hm.dirsNodup, ?_, hm.dirsNonempty, ?_, hm.dirsClosed⟩
  · intro p hp
    rcases keys_insertInv.mp hp with hp' | rfl
    · exact h.filesNonempty p hp'
    · exact hrel
  · intro p hp q hq
    rcases keys_insertInv.mp hp with hp' | rfl
    · exact hm.filesClosed p hp' q hq
    · exact mem_addParents.mpr (Or.inr hq)

theorem WF_erase {t : Tree} (h : WF t) (rel : RelPath) :
    WF ⟨eraseInv t.files rel, t.dirs⟩ := by
  refine ⟨keysNodup_eraseInv h.filesNodup, h.dirsNodup, ?_, h.dirsNonempty, ?_, h.dirsClosed⟩
  · intro p hp
    exact h.filesNonempty p (keys_eraseInv_subset hp)
  · intro p hp q hq
    exact h.filesClosed p (keys_eraseInv_subset hp) q hq

/-- Execution preserves tree well-formedness (for any environment, aborted or
not), provided no planned operation names the empty path. -/
theorem execOps_WF (env : ExecEnv) (total : Nat) :
    ∀ (ops : List (Phase × RelPath)) (idx : Nat) (s : ExecState),
      WF s.tree → (∀ op ∈ ops, op.2 ≠ []) →
      WF (outState (execOps env total ops idx s)).tree := by
  intro ops
  induction ops with
  | nil => intro idx s hwf _; exact hwf
  | cons op rest ih =>
    intro idx s hwf hne
    obtain ⟨ph, rel⟩ := op
    have hrel : rel ≠ [] := hne (ph, rel) (by simp)
    have hrest : ∀ op ∈ rest, op.2 ≠ [] := fun op hop => hne op (List.mem_cons_of_mem _ hop)
    cases ph with
    | write =>
      simp only [execOps]
      cases env.stageAt rel with
      | some h =>
        by_cases hc : env.copyRaises rel = true
        · simp only [hc, if_true]
          exact WF_mkdir hwf rel
        · simp only [Bool.not_eq_true] at hc
          simp only [hc, Bool.false_eq_true, if_false, notifyProgress_eq]
          exact ih (idx + 1) _ (WF_write hwf hrel h) hrest
      | none =>
        simp only [notifyProgress_eq]
        exact ih (idx + 1) _ (WF_mkdir hwf rel) hrest
    | delete =>
      simp only [execOps, notifyProgress_eq]
      by_cases hcont : containsInv s.tree.files rel = true
      · by_cases hu : env.unlinkRaises rel = true
        · simp only [hcont, hu, if_true]
          exact ih (idx + 1) _ hwf hrest
        · simp only [Bool.not_eq_true] at hu
          simp only [hcont, hu, Bool.false_eq_true, if_false, if_true]
          exact ih (idx + 1) _ (WF_erase hwf rel) hrest
      · simp only [Bool.not_eq_true] at hcont
        simp only [hcont, Bool.false_eq_true, if_false]
        exact ih (idx + 1) _ hwf hrest

/-! ## Single-step decomposition of the execution loop -/

/-- One iteration of the execution loop, as a function of the operation. -/
def execStep1 (env : ExecEnv) (total idx : Nat) (s : ExecState) :
    Phase × RelPath → Except ExecState ExecState
  | (Phase.write, rel) =>
    let t1 : Tree := { s.tree with dirs := addParents s.tree.dirs rel }
    match env.stageAt rel with
    | some h =>
      if env.copyRaises rel then .error { s with tree := t1 }
      else
        .ok (notifyProgress env
          { tree := { files := insertInv t1.files rel h, dirs := t1.dirs },
            changed := s.changed ++ [rel], events := s.events }
          ⟨Phase.write, rel, idx + 1, total⟩)
    | none =>
      .ok (notifyProgress env { s with tree := t1 } ⟨Phase.write, rel, idx + 1, total⟩)
  | (Phase.delete, rel) =>
    let s1 : ExecState :=
      if containsInv s.tree.files rel then
        if env.unlinkRaises rel then s
        else
          { s with tree := { files := eraseInv s.tree.files rel, dirs := s.tree.dirs },
                   changed := s.changed ++ [rel] }
      else s
    .ok (notifyProgress env s1 ⟨Phase.delete, rel, idx + 1, total⟩)

theorem execOps_cons (env : ExecEnv) (total : Nat) (op : Phase × RelPath)
    (rest : List (Phase × RelPath)) (idx : Nat) (s : ExecState) :
    execOps env total (op :: rest) idx s =
      match execStep1 env total idx s op with
      | .error e => .error e
      | .ok s1 => execOps env total rest (idx + 1) s1 := by
  obtain ⟨ph, rel⟩ := op
  cases ph with
  | write =>
    simp only [execOps, execStep1]
    cases env.stageAt rel with
    | some h =>
      by_cases hc : env.copyRaises rel = true
      · simp [hc]
      · simp only [Bool.not_eq_true] at hc
        simp [hc]
    | none => simp
  | delete => simp [execOps, execStep1]

theorem execOps_append_ok (env : ExecEnv) (total : Nat) :
    ∀ (l1 : List (Phase × RelPath)) (l2 : List (Phase × RelPath)) (idx : Nat)
      (s s1 : ExecState),
      execOps env total l1 idx s = .ok s1 →
      execOps env total (l1 ++ l2) idx s = execOps env total l2 (idx + l1.length) s1 := by
  intro l1
  induction l1 with
  | nil =>
    intro l2 idx s s1 h
    obtain rfl : s = s1 := by simpa [execOps] using h
    simp
  | cons op rest ih =>
    intro l2 idx s s1 h
    rw [execOps_cons] at h
    rw [List.cons_append, execOps_cons]
    cases hstep : execStep1 env total idx s op with
    | error e => simp [hstep] at h
    | ok s2 =>
      simp only [hstep] at h ⊢
      rw [ih l2 (idx + 1) s2 s1 h]
      congr 1
      simp
      omega

theorem execOps_append_error (env : ExecEnv) (total : Nat) :
    ∀ (l1 : List (Phase × RelPath)) (l2 : List (Phase × RelPath)) (idx : Nat)
      (s e : ExecState),
      execOps env total l1 idx s = .error e →
      execOps env total (l1 ++ l2) idx s = .error e := by
  intro l1
  induction l1 with
  | nil => intro l2 idx s e h; simp [execOps] at h
  | cons op rest ih =>
    intro l2 idx s e h
    rw [execOps_cons] at h
    rw [List.cons_append, execOps_cons]
    cases hstep : execStep1 env total idx s op with
    | error e' =>
      simp only [hstep] at h ⊢
      exact h
    | ok s2 =>
      simp only [hstep] at h ⊢
      exact ih l2 (idx + 1) s2 e h

/-! ## Characterization of a run with no copy exception -/

/-- Effect of one operation on the install file map (no copy exception). -/
def applyOpFiles (env : ExecEnv) (files : Inv) : Phase × RelPath → Inv
  | (Phase.write, rel) =>
    match env.stageAt rel with
    | some h => insertInv files rel h
    | none => files
  | (Phase.delete, rel) =>
    if containsInv files rel then
      if env.unlinkRaises rel then files else eraseInv files rel
    else files

/-- Effect of one operation on the directory set. -/
def applyOpDirs (dirs : List RelPath) : Phase × RelPath → List RelPath
  | (Phase.write, rel) => addParents dirs rel
  | (Phase.delete, _) => dirs

/-- The callback invocations produced by a run starting at 0-based position
`idx`: 1-based indices `idx+1, idx+2, ...` with the fixed total. -/
def mkEvents (idx total : Nat) : List (Phase × RelPath) → List Event
  | [] => []
  | (ph, rel) :: rest => ⟨ph, rel, idx + 1, total⟩ :: mkEvents (idx + 1) total rest

/-- When no copy raises, execution completes, the final file map and
directory set are left folds of the per-operation effects, and the callback
is invoked once per operation in order. -/
theorem execOps_ok (env : ExecEnv) (total : Nat)
    (hcr : ∀ r, env.copyRaises r = false) :
    ∀ (ops : List (Phase × RelPath)) (idx : Nat) (s : ExecState),
      ∃ s', execOps env total ops idx s = .ok s' ∧
        s'.tree.files = ops.foldl (applyOpFiles env) s.tree.files ∧
        s'.tree.dirs = ops.foldl applyOpDirs s.tree.dirs ∧
        s'.events = s.events ++ mkEvents idx total ops := by
  intro ops
  induction ops with
  | nil => intro idx s; exact ⟨s, rfl, rfl, rfl, by simp [mkEvents]⟩
  | cons op rest ih =>
    intro idx s
    obtain ⟨ph, rel⟩ := op
    rw [execOps_cons]
    cases ph with
    | write =>
      cases hsa : env.stageAt rel with
      | some h =>
        obtain ⟨s', h1, h2, h3, h4⟩ := ih (idx + 1)
          { tree := { files := insertInv s.tree.files rel h,
                      dirs := addParents s.tree.dirs rel },
            changed := s.changed ++ [rel],
            events := s.events ++ [⟨Phase.write, rel, idx + 1, total⟩] }
        refine ⟨s', ?_, ?_, ?_, ?_⟩
        · simp only [execStep1, hsa, hcr rel, Bool.false_eq_true, if_false, notifyProgress_eq]
          exact h1
        · simpa [applyOpFiles, hsa] using h2
        · simpa [applyOpDirs] using h3
        · simp only [h4, mkEvents]
          simp
      | none =>
        obtain ⟨s', h1, h2, h3, h4⟩ := ih (idx + 1)
          { tree := { files := s.tree.files, dirs := addParents s.tree.dirs rel },
            changed := s.changed,
            events := s.events ++ [⟨Phase.write, rel, idx + 1, total⟩] }
        refine ⟨s', ?_, ?_, ?_, ?_⟩
        · simp only [execStep1, hsa, notifyProgress_eq]
          exact h1
        · simpa [applyOpFiles, hsa] using h2
        · simpa [applyOpDirs] using h3
        · simp only [h4, mkEvents]
          simp
    | delete =>
      by_cases hcont : containsInv s.tree.files rel = true
      · by_cases hu : env.unlinkRaises rel = true
        · obtain ⟨s', h1, h2, h3, h4⟩ := ih (idx + 1)
            { s with events := s.events ++ [⟨Phase.delete, rel, idx + 1, total⟩] }
          refine ⟨s', ?_, ?_, ?_, ?_⟩
          · simp only [execStep1, hcont, hu, if_true, notifyProgress_eq]
            exact h1
          · simpa [applyOpFiles, hcont, hu] using h2
          · simpa [applyOpDirs] using h3
          · simp only [h4, mkEvents]
            simp
        · simp only [Bool.not_eq_true] at hu
          obtain ⟨s', h1, h2, h3, h4⟩ := ih (idx + 1)
            { tree := { files := eraseInv s.tree.files rel, dirs := s.tree.dirs },
              changed := s.changed ++ [rel],
              events := s.events ++ [⟨Phase.delete, rel, idx + 1, total⟩] }
          refine ⟨s', ?_, ?_, ?_, ?_⟩
          · simp only [execStep1, hcont, hu, Bool.false_eq_true, if_false, if_true,
              notifyProgress_eq]
            exact h1
          · simpa [applyOpFiles, hcont, hu] using h2
          · simpa [applyOpDirs] using h3
          · simp only [h4, mkEvents]
            simp
      · simp only [Bool.not_eq_true] at hcont
        obtain ⟨s', h1, h2, h3, h4⟩ := ih (idx + 1)
          { s with events := s.events ++ [⟨Phase.delete, rel, idx + 1, total⟩] }
        refine ⟨s', ?_, ?_, ?_, ?_⟩
        · simp only [execStep1, hcont, Bool.false_eq_true, if_false, notifyProgress_eq]
          exact h1
        · simpa [applyOpFiles, hcont] using h2
        · simpa [applyOpDirs] using h3
        · simp only [h4, mkEvents]
          simp

theorem mkEvents_length (total : Nat) :
    ∀ (ops : List (Phase × RelPath)) (idx : Nat), (mkEvents idx total ops).length = ops.length
  | [], _ => rfl
  | (_, _) :: rest, idx => by simp [mkEvents, mkEvents_length total rest (idx + 1)]

theorem mkEvents_map_op (total : Nat) :
    ∀ (ops : List (Phase × RelPath)) (idx : Nat),
      (mkEvents idx total ops).map (fun e => (e.phase, e.rel)) = ops
  | [], _ => rfl
  | (ph, rel) :: rest, idx => by
    simp [mkEvents, mkEvents_map_op total rest (idx + 1)]

theorem mkEvents_total (total : Nat) :
    ∀ (ops : List (Phase × RelPath)) (idx : Nat), ∀ e ∈ mkEvents idx total ops, e.total = total
  | [], _, e, he => by simp [mkEvents] at he
  | (ph, rel) :: rest, idx, e, he => by
    rcases List.mem_cons.mp he with rfl | he'
    · rfl
    · exact mkEvents_total total rest (idx + 1) e he'

theorem mkEvents_map_idx (total : Nat) :
    ∀ (ops : List (Phase × RelPath)) (idx : Nat),
      (mkEvents idx total ops).map Event.idx = List.range' (idx + 1) ops.length
  | [], _ => rfl
  | (ph, rel) :: rest, idx => by
    simp [mkEvents, List.range'_succ, mkEvents_map_idx total rest (idx + 1)]

theorem mkEvents_mem_of (total : Nat) :
    ∀ (ops : List (Phase × RelPath)) (idx : Nat) (ph : Phase) (rel : RelPath),
      (ph, rel) ∈ ops → ∃ i, (⟨ph, rel, i, total⟩ : Event) ∈ mkEvents idx total ops
  | [], _, _, _, hm => by simp at hm
  | (ph', rel') :: rest, idx, ph, rel, hm => by
    rcases List.mem_cons.mp hm with heq | hm'
    · injection heq with e1 e2
      exact ⟨idx + 1, by simp [mkEvents, e1, e2]⟩
    · obtain ⟨i, hi⟩ := mkEvents_mem_of total rest (idx + 1) ph rel hm'
      exact ⟨i, List.mem_cons_of_mem _ hi⟩

/-! ## Locating the unique operation for a path -/

theorem nodup_decomp {ops : List (Phase × RelPath)} {op : Phase × RelPath}
    (hmem : op ∈ ops) (hnd : (ops.map Prod.snd).Nodup) :
    ∃ l1 l2, ops = l1 ++ op :: l2 ∧ op.2 ∉ l1.map Prod.snd ∧ op.2 ∉ l2.map Prod.snd := by
  obtain ⟨l1, l2, rfl⟩ := List.append_of_mem hmem
  rw [List.map_append, List.map_cons] at hnd
  obtain ⟨hnd1, hnd2, hdisj⟩ := List.nodup_append.mp hnd
  refine ⟨l1, l2, rfl, fun hc => hdisj hc (by simp), ?_⟩
  exact (List.nodup_cons.mp hnd2).1

/-- A planned write whose source file has vanished from the stage by
execution time leaves the target path fully untouched. -/
theorem execOps_write_missing (env : ExecEnv) (total : Nat) {rel : RelPath}
    (ops : List (Phase × RelPath)) (idx : Nat) (s : ExecState)
    (hnd : (ops.map Prod.snd).Nodup) (hmem : (Phase.write, rel) ∈ ops)
    (hsa : env.stageAt rel = none) :
    Untouched rel s (outState (execOps env total ops idx s)) := by
  obtain ⟨l1, l2, rfl, h1, h2⟩ := nodup_decomp hmem hnd
  cases hrun : execOps env total l1 idx s with
  | error e =>
    rw [execOps_append_error env total l1 _ idx s e hrun]
    have h := execOps_untouched env total l1 idx s h1
    rwa [hrun] at h
  | ok s1 =>
    rw [execOps_append_ok env total l1 _ idx s s1 hrun]
    have hu1 : Untouched rel s s1 := by
      have h := execOps_untouched env total l1 idx s h1
      rwa [hrun] at h
    rw [execOps_cons]
    simp only [execStep1, hsa, notifyProgress_eq]
    refine untouched_trans _ (untouched_trans _ hu1 ?_) (execOps_untouched env total l2 _ _ h2)
    exact ⟨rfl, fun h => h, fun d hd => subset_addParents d hd⟩

/-- A planned delete whose `unlink` raises leaves the path's entry in
`changed` out and execution continues. -/
theorem execOps_delete_raises (env : ExecEnv) (total : Nat) {rel : RelPath}
    (ops : List (Phase × RelPath)) (idx : Nat) (s : ExecState)
    (hnd : (ops.map Prod.snd).Nodup) (hmem : (Phase.delete, rel) ∈ ops)
    (hu : env.unlinkRaises rel = true) :
    Untouched rel s (outState (execOps env total ops idx s)) := by
  obtain ⟨l1, l2, rfl, h1, h2⟩ := nodup_decomp hmem hnd
  cases hrun : execOps env total l1 idx s with
  | error e =>
    rw [execOps_append_error env total l1 _ idx s e hrun]
    have h := execOps_untouched env total l1 idx s h1
    rwa [hrun] at h
  | ok s1 =>
    rw [execOps_append_ok env total l1 _ idx s s1 hrun]
    have hu1 : Untouched rel s s1 := by
      have h := execOps_untouched env total l1 idx s h1
      rwa [hrun] at h
    rw [execOps_cons]
    simp only [execStep1, hu, notifyProgress_eq]
    by_cases hcont : containsInv s1.tree.files rel = true
    · simp only [hcont, if_true]
      refine untouched_trans _ (untouched_trans _ hu1 ?_) (execOps_untouched env total l2 _ _ h2)
      exact ⟨rfl, fun h => h, fun _ hd => hd⟩
    · simp only [Bool.not_eq_true] at hcont
      simp only [hcont, Bool.false_eq_true, if_false]
      refine untouched_trans _ (untouched_trans _ hu1 ?_) (execOps_untouched env total l2 _ _ h2)
      exact ⟨rfl, fun h => h, fun _ hd => hd⟩

/-! ## Lookup through the per-operation fold -/

theorem applyOpFiles_lookup_ne (env : ExecEnv) {rel : RelPath} (m : Inv)
    (op : Phase × RelPath) (hne : rel ≠ op.2) :
    lookupInv (applyOpFiles env m op) rel = lookupInv m rel := by
  obtain ⟨ph, rel'⟩ := op
  cases ph with
  | write =>
    simp only [applyOpFiles]
    cases env.stageAt rel' with
    | some h => exact lookupInv_insert_ne hne
    | none => rfl
  | delete =>
    simp only [applyOpFiles]
    by_cases hcont : containsInv m rel' = true
    · by_cases hu : env.unlinkRaises rel' = true
      · simp [hcont, hu]
      · simp only [Bool.not_eq_true] at hu
        simp only [hcont, hu, Bool.false_eq_true, if_false, if_true]
        exact lookupInv_erase_ne hne
    · simp only [Bool.not_eq_true] at hcont
      simp [hcont]

theorem applyOpFiles_keysNodup (env : ExecEnv) (m : Inv) (op : Phase × RelPath)
    (hnd : keysNodup m) : keysNodup (applyOpFiles env m op) := by
  obtain ⟨ph, rel'⟩ := op
  cases ph with
  | write =>
    simp only [applyOpFiles]
    cases env.stageAt rel' with
    | some h => exact keysNodup_insertInv hnd
    | none => exact hnd
  | delete =>
    simp only [applyOpFiles]
    by_cases hcont : containsInv m rel' = true
    · by_cases hu : env.unlinkRaises rel' = true
      · simpa [hcont, hu] using hnd
      · simp only [Bool.not_eq_true] at hu
        simp only [hcont, hu, Bool.false_eq_true, if_false, if_true]
        exact keysNodup_eraseInv hnd
    · simp only [Bool.not_eq_true] at hcont
      simpa [hcont] using hnd

theorem foldl_applyOpFiles_keysNodup (env : ExecEnv) :
    ∀ (ops : List (Phase × RelPath)) (m : Inv), keysNodup m →
      keysNodup (ops.foldl (applyOpFiles env) m)
  | [], _, hnd => hnd
  | op :: rest, m, hnd =>
    foldl_applyOpFiles_keysNodup env rest _ (applyOpFiles_keysNodup env m op hnd)

theorem foldl_applyOpFiles_notmem (env : ExecEnv) {rel : RelPath} :
    ∀ (ops : List (Phase × RelPath)) (m : Inv), rel ∉ ops.map Prod.snd →
      lookupInv (ops.foldl (applyOpFiles env) m) rel = lookupInv m rel
  | [], _, _ => rfl
  | op :: rest, m, hmem => by
    have hne : rel ≠ op.2 := fun hc => hmem (by simp [hc])
    have hrest : rel ∉ rest.map Prod.snd := fun hc => hmem (List.mem_cons_of_mem _ hc)
    rw [List.foldl_cons, foldl_applyOpFiles_notmem env rest _ hrest,
      applyOpFiles_lookup_ne env m op hne]

theorem foldl_applyOpFiles_write (env : ExecEnv) {rel : RelPath} {h : Hash}
    (l1 l2 : List (Phase × RelPath)) (m : Inv) (h2 : rel ∉ l2.map Prod.snd)
    (hsa : env.stageAt rel = some h) :
    lookupInv ((l1 ++ (Phase.write, rel) :: l2).foldl (applyOpFiles env) m) rel = some h := by
  rw [List.foldl_append, List.foldl_cons, foldl_applyOpFiles_notmem env l2 _ h2]
  simp [applyOpFiles, hsa, lookupInv_insert_self]

theorem foldl_applyOpFiles_delete (env : ExecEnv) {rel : RelPath}
    (l1 l2 : List (Phase × RelPath)) (m : Inv) (h1 : rel ∉ l1.map Prod.snd)
    (h2 : rel ∉ l2.map Prod.snd) (hu : env.unlinkRaises rel = false)
    (hpres : lookupInv m rel ≠ none) :
    lookupInv ((l1 ++ (Phase.delete, rel) :: l2).foldl (applyOpFiles env) m) rel = none := by
  rw [List.foldl_append, List.foldl_cons, foldl_applyOpFiles_notmem env l2 _ h2]
  have hcur : lookupInv (l1.foldl (applyOpFiles env) m) rel = lookupInv m rel :=
    foldl_applyOpFiles_notmem env l1 m h1
  have hcont : containsInv (l1.foldl (applyOpFiles env) m) rel = true := by
    simp only [containsInv, hcur]
    cases hm : lookupInv m rel with
    | none => exact absurd hm hpres
    | some v => simp
  simp [applyOpFiles, hcont, hu, lookupInv_erase_self]

/-! ## Plan characterization -/

theorem plan_mem_elim {stage_map target_map : Inv} {pres : List String}
    {op : Phase × RelPath} (hop : op ∈ planOps stage_map target_map pres) :
    glob_preserved op.2 pres = false ∧
    ((op.1 = Phase.write ∧ ∃ h, (op.2, h) ∈ stage_map ∧ lookupInv target_map op.2 ≠ some h) ∨
     (op.1 = Phase.delete ∧ op.2 ∈ target_map.map Prod.fst ∧
       lookupInv stage_map op.2 = none)) := by
  rcases List.mem_append.mp hop with hw | hd
  · obtain ⟨fh, hfh, heq⟩ := List.mem_filterMap.mp hw
    by_cases hp : glob_preserved fh.1 pres = true
    · simp [hp] at heq
    · simp only [Bool.not_eq_true] at hp
      simp only [hp, Bool.false_eq_true, if_false] at heq
      cases ht : lookupInv target_map fh.1 with
      | none =>
        simp only [ht] at heq
        injection heq with heq'
        subst heq'
        exact ⟨hp, Or.inl ⟨rfl, fh.2, by simpa using hfh, by simp [ht]⟩⟩
      | some old =>
        simp only [ht] at heq
        by_cases hne : old = fh.2
        · simp [hne] at heq
        · simp only [ne_eq, hne, not_false_iff, if_true] at heq
          injection heq with heq'
          subst heq'
          refine ⟨hp, Or.inl ⟨rfl, fh.2, by simpa using hfh, ?_⟩⟩
          simp only [ht]
          intro hc
          injection hc with hc'
          exact hne hc'
  · obtain ⟨fh, hfh, heq⟩ := List.mem_filterMap.mp hd
    by_cases hs : lookupInv stage_map fh.1 = none
    · simp only [hs, if_true] at heq
      by_cases hp : glob_preserved fh.1 pres = true
      · simp [hp] at heq
      · simp only [Bool.not_eq_true] at hp
        simp only [hp, Bool.false_eq_true, if_false] at heq
        injection heq with heq'
        subst heq'
        exact ⟨hp, Or.inr ⟨rfl, List.mem_map.mpr ⟨fh, hfh, rfl⟩, hs⟩⟩
    · simp [hs] at heq

theorem plan_write_intro {stage_map target_map : Inv} {pres : List String}
    {rel : RelPath} {h : Hash} (hm : (rel, h) ∈ stage_map)
    (hp : glob_preserved rel pres = false)
    (hne : lookupInv target_map rel ≠ some h) :
    (Phase.write, rel) ∈ planOps stage_map target_map pres := by
  refine List.mem_append.mpr (Or.inl (List.mem_filterMap.mpr ⟨(rel, h), hm, ?_⟩))
  simp only [hp, Bool.false_eq_true, if_false]
  cases ht : lookupInv target_map rel with
  | none => rfl
  | some old =>
    have : old ≠ h := by
      intro hc
      exact hne (by simp [ht, hc])
    simp [this]

theorem plan_delete_intro {stage_map target_map : Inv} {pres : List String}
    {rel : RelPath} {h : Hash} (hm : (rel, h) ∈ target_map)
    (hs : lookupInv stage_map rel = none)
    (hp : glob_preserved rel pres = false) :
    (Phase.delete, rel) ∈ planOps stage_map target_map pres := by
  refine List.mem_append.mpr (Or.inr (List.mem_filterMap.mpr ⟨(rel, h), hm, ?_⟩))
  simp [hs, hp]

theorem filterMap_rels_sublist (f : RelPath × Hash → Option (Phase × RelPath))
    (hf : ∀ fh op, f fh = some op → op.2 = fh.1) :
    ∀ m : Inv, ((m.filterMap f).map Prod.snd).Sublist (m.map Prod.fst)
  | [] => List.Sublist.refl _
  | fh :: rest => by
    cases hffh : f fh with
    | none =>
      simp only [List.filterMap_cons, hffh, List.map_cons]
      exact (filterMap_rels_sublist f hf rest).cons fh.1
    | some op =>
      simp only [List.filterMap_cons, hffh, List.map_cons]
      rw [hf fh op hffh]
      exact (filterMap_rels_sublist f hf rest).cons₂ fh.1

theorem plan_rels_nodup {stage_map target_map : Inv} {pres : List String}
    (hσ : keysNodup stage_map) (hτ : keysNodup target_map) :
    ((planOps stage_map target_map pres).map Prod.snd).Nodup := by
  rw [planOps, List.map_append]
  have hf1 : ∀ (fh : RelPath × Hash) (op : Phase × RelPath),
      (if glob_preserved fh.1 pres then none
      else match lookupInv target_map fh.1 with
        | none => some (Phase.write, fh.1)
        | some old => if old ≠ fh.2 then some (Phase.write, fh.1) else none) = some op →
      op.2 = fh.1 := by
    intro fh op heq
    by_cases hp : glob_preserved fh.1 pres = true
    · simp [hp] at heq
    · simp only [Bool.not_eq_true] at hp
      simp only [hp, Bool.false_eq_true, if_false] at heq
      cases ht : lookupInv target_map fh.1 with
      | none =>
        simp only [ht] at heq
        injection heq with heq'
        simp [← heq']
      | some old =>
        simp only [ht] at heq
        by_cases hne : old = fh.2
        · simp [hne] at heq
        · simp only [ne_eq, hne, not_false_iff, if_true] at heq
          injection heq with heq'
          simp [← heq']
  have hf2 : ∀ (fh : RelPath × Hash) (op : Phase × RelPath),
      (if lookupInv stage_map fh.1 = none then
        if glob_preserved fh.1 pres then none else some (Phase.delete, fh.1)
      else none) = some op → op.2 = fh.1 := by
    intro fh op heq
    by_cases hs : lookupInv stage_map fh.1 = none
    · simp only [hs, if_true] at heq
      by_cases hp : glob_preserved fh.1 pres = true
      · simp [hp] at heq
      · simp only [Bool.not_eq_true] at hp
        simp only [hp, Bool.false_eq_true, if_false] at heq
        injection heq with heq'
        simp [← heq']
    · simp [hs] at heq
  have hs1 := filterMap_rels_sublist _ hf1 stage_map
  have hs2 := filterMap_rels_sublist _ hf2 target_map
  refine List.nodup_append.mpr ⟨hs1.nodup hσ, hs2.nodup hτ, ?_⟩
  intro a ha1 ha2
  have haσ : a ∈ stage_map.map Prod.fst := hs1.subset ha1
  obtain ⟨op, hop, rfl⟩ := List.mem_map.mp ha2
  obtain ⟨fh, hfh, heq⟩ := List.mem_filterMap.mp hop
  have hrel : op.2 = fh.1 := hf2 fh op heq
  by_cases hs : lookupInv stage_map fh.1 = none
  · rw [hrel] at haσ
    exact (lookupInv_eq_none_iff.mp hs) haσ
  · simp [hs] at heq

theorem plan_not_preserved {stage_map target_map : Inv} {pres : List String}
    {op : Phase × RelPath} (hop : op ∈ planOps stage_map target_map pres) :
    glob_preserved op.2 pres = false :=
  (plan_mem_elim hop).1

theorem plan_rels_ne_nil {stage_map target_map : Inv} {pres : List String}
    (hσ : ∀ p ∈ stage_map.map Prod.fst, p ≠ [])
    (hτ : ∀ p ∈ target_map.map Prod.fst, p ≠ []) :
    ∀ op ∈ planOps stage_map target_map pres, op.2 ≠ [] := by
  intro op hop
  rcases (plan_mem_elim hop).2 with ⟨_, h, hm, _⟩ | ⟨_, hm, _⟩
  · exact hσ op.2 (List.mem_map.mpr ⟨(op.2, h), hm, rfl⟩)
  · exact hτ op.2 hm

/-! ## Cleanup lemmas -/

theorem cleanupStep_files (t : Tree) (d : RelPath) : (cleanupStep t d).files = t.files := by
  unfold cleanupStep
  split <;> rfl

theorem foldl_cleanupStep_files : ∀ (l : List RelPath) (t : Tree),
    (l.foldl cleanupStep t).files = t.files
  | [], _ => rfl
  | d :: rest, t => by
    rw [List.foldl_cons, foldl_cleanupStep_files rest, cleanupStep_files]

theorem cleanup_files (t : Tree) : (cleanup t).files = t.files :=
  foldl_cleanupStep_files _ t

theorem cleanupStep_dirs_subset (t : Tree) (d : RelPath) :
    ∀ x ∈ (cleanupStep t d).dirs, x ∈ t.dirs := by
  unfold cleanupStep
  split
  · intro x hx
    exact List.mem_of_mem_erase hx
  · intro x hx
    exact hx

theorem foldl_cleanupStep_dirs_subset : ∀ (l : List RelPath) (t : Tree),
    ∀ x ∈ (l.foldl cleanupStep t).dirs, x ∈ t.dirs
  | [], _, _, hx => hx
  | d :: rest, t, x, hx =>
    cleanupStep_dirs_subset t d x
      (foldl_cleanupStep_dirs_subset rest (cleanupStep t d) x hx)

theorem cleanup_dirs_subset (t : Tree) : ∀ x ∈ (cleanup t).dirs, x ∈ t.dirs :=
  foldl_cleanupStep_dirs_subset _ t

theorem isEmptyDir_eq_false_iff {t : Tree} {d : RelPath} :
    isEmptyDir t d = false ↔
      (∃ fh ∈ t.files, fh.1.dropLast = d) ∨ (∃ x ∈ t.dirs, x.dropLast = d) := by
  simp only [isEmptyDir, Bool.and_eq_false_iff, List.all_eq_false, decide_eq_true_eq,
    not_not]

/-- The cleanup pass never touches a directory that still has a file strictly
below it: the immediate child witnessing non-emptiness is either the file
itself or an ancestor directory of the file, which survives by the same
argument. -/
theorem foldl_cleanup_keeps (t0 : Tree) (hwf : WF t0) :
    ∀ (l : List RelPath) (t : Tree),
      t.files = t0.files →
      (∀ x, x ∈ t0.dirs → (∃ p ∈ t0.files.map Prod.fst, x ∈ strictPrefixes p) → x ∈ t.dirs) →
      ∀ x, x ∈ t0.dirs → (∃ p ∈ t0.files.map Prod.fst, x ∈ strictPrefixes p) →
        x ∈ (l.foldl cleanupStep t).dirs := by
  intro l
  induction l with
  | nil => intro t _ hkeep x hx hdesc; exact hkeep x hx hdesc
  | cons y rest ih =>
    intro t hfiles hkeep x hx hdesc
    rw [List.foldl_cons]
    refine ih (cleanupStep t y) (by rw [cleanupStep_files, hfiles]) ?_ x hx hdesc
    intro z hz hzdesc
    have hzt : z ∈ t.dirs := hkeep z hz hzdesc
    unfold cleanupStep
    split
    case isTrue hguard =>
      have hzney : z ≠ y := by
        rintro rfl
        -- z would be non-empty, contradicting the removal guard
        obtain ⟨p, hp, hzp⟩ := hzdesc
        obtain ⟨hzne, c, s, rfl⟩ := strictPrefixes_spec hzp
        have hempty : isEmptyDir t z = false := by
          rw [isEmptyDir_eq_false_iff]
          cases s with
          | nil =>
            obtain ⟨fh, hfh, hfst⟩ := List.mem_map.mp hp
            refine Or.inl ⟨fh, by rw [hfiles]; exact hfh, ?_⟩
            rw [hfst]
            exact List.dropLast_concat ..
          | cons c2 s2 =>
            have hchild : (z ++ [c]) ∈ strictPrefixes (z ++ c :: c2 :: s2) :=
              concat_mem_strictPrefixes z c (by simp)
            have hct0 : (z ++ [c]) ∈ t0.dirs := hwf.filesClosed _ hp _ hchild
            have hct : (z ++ [c]) ∈ t.dirs := hkeep _ hct0 ⟨_, hp, hchild⟩
            exact Or.inr ⟨z ++ [c], hct, List.dropLast_concat ..⟩
        rw [hempty] at hguard
        exact absurd hguard.2 (by simp)
      exact List.mem_erase_of_ne hzney |>.mpr hzt
    case isFalse => exact hzt

theorem cleanup_keeps (t : Tree) (hwf : WF t) {p d : RelPath}
    (hp : p ∈ t.files.map Prod.fst) (hd : d ∈ strictPrefixes p) :
    d ∈ (cleanup t).dirs :=
  foldl_cleanup_keeps t hwf _ t rfl (fun _ hx _ => hx) d
    (hwf.filesClosed p hp d hd) ⟨p, hp, hd⟩

/-- Bottom-up invariant of the cleanup fold: once a directory's turn has
passed, it is (and stays) non-empty, because everything processed later has a
path string no longer than its own, while its children are strictly longer. -/
theorem foldl_cleanup_no_empty :
    ∀ (l : List RelPath) (t : Tree),
      List.Pairwise lenGE l →
      t.dirs.Nodup →
      (∀ d ∈ t.dirs, d ≠ []) →
      (∀ d ∈ t.dirs, d ∉ l → ∀ x ∈ l, strLen x ≤ strLen d) →
      (∀ d ∈ t.dirs, d ∉ l → isEmptyDir t d = false) →
      ∀ d ∈ (l.foldl cleanupStep t).dirs, isEmptyDir (l.foldl cleanupStep t) d = false := by
  intro l
  induction l with
  | nil =>
    intro t _ _ _ _ hemp d hd
    exact hemp d hd (by simp)
  | cons y rest ih =>
    intro t hpw hnd hne hbnd hemp
    rw [List.foldl_cons]
    have hpw' : List.Pairwise lenGE rest := (List.pairwise_cons.mp hpw).2
    have hyrest : ∀ x ∈ rest, strLen x ≤ strLen y := (List.pairwise_cons.mp hpw).1
    refine ih (cleanupStep t y) hpw' ?_ ?_ ?_ ?_
    · -- nodup
      unfold cleanupStep
      split
      · exact hnd.erase y
      · exact hnd
    · -- nonempty paths
      intro d hd
      exact hne d (cleanupStep_dirs_subset t y d hd)
    · -- length bound for processed dirs
      intro d hd hdl
      have hdt : d ∈ t.dirs := cleanupStep_dirs_subset t y d hd
      by_cases hdy : d = y
      · subst hdy
        exact hyrest
      · have : d ∉ y :: rest := by
          intro hc
          rcases List.mem_cons.mp hc with h | h
          · exact hdy h
          · exact hdl h
        intro x hx
        exact hbnd d hdt this x (List.mem_cons_of_mem _ hx)
    · -- processed dirs are non-empty
      intro d hd hdl
      have hdt : d ∈ t.dirs := cleanupStep_dirs_subset t y d hd
      by_cases hdy : d = y
      · subst hdy
        unfold cleanupStep at hd ⊢
        split at hd
        next hguard =>
          exact absurd rfl ((hnd.mem_erase_iff).mp hd).1
        next hguard =>
          rw [if_neg hguard]
          rcases Decidable.not_and_iff_or_not.mp hguard with h | h
          · exact absurd hdt h
          · simpa using h
      · have hdm : d ∉ y :: rest := by
          intro hc
          rcases List.mem_cons.mp hc with h | h
          · exact hdy h
          · exact hdl h
        have hold : isEmptyDir t d = false := hemp d hdt hdm
        rw [isEmptyDir_eq_false_iff] at hold ⊢
        rcases hold with ⟨fh, hfh, hfd⟩ | ⟨x, hx, hxd⟩
        · exact Or.inl ⟨fh, by rw [cleanupStep_files]; exact hfh, hfd⟩
        · by_cases hxy : x = y
          · exfalso
            subst hxy
            have hxne : x ≠ [] := hne x hx
            have hlt : strLen x.dropLast < strLen x := by
              conv_rhs => rw [← List.dropLast_append_getLast hxne]
              have hdne : x.dropLast ≠ [] := by
                rw [hxd]
                exact hne d hdt
              exact strLen_lt_concat _ _ hdne
            rw [hxd] at hlt
            have hle : strLen x ≤ strLen d := hbnd d hdt hdm x (by simp)
            omega
          · refine Or.inr ⟨x, ?_, hxd⟩
            unfold cleanupStep
            split
            · exact (List.mem_erase_of_ne hxy).mpr hx
            · exact hx

theorem cleanup_no_empty (t : Tree) (hnd : t.dirs.Nodup)
    (hne : ∀ d ∈ t.dirs, d ≠ []) :
    ∀ d ∈ (cleanup t).dirs, isEmptyDir (cleanup t) d = false := by
  unfold cleanup
  have hperm := List.perm_insertionSort lenGE t.dirs
  refine foldl_cleanup_no_empty _ t ?_ hnd hne ?_ ?_
  · exact List.sorted_insertionSort lenGE t.dirs
  · intro d hd hdl
    exact absurd (hperm.mem_iff.mpr hd) hdl
  · intro d hd hdl
    exact absurd (hperm.mem_iff.mpr hd) hdl

theorem cleanup_id_of_no_empty (t : Tree)
    (h : ∀ d ∈ t.dirs, isEmptyDir t d = false) : cleanup t = t := by
  unfold cleanup
  generalize List.insertionSort lenGE t.dirs = l
  induction l with
  | nil => rfl
  | cons y rest ih =>
    rw [List.foldl_cons]
    have hstep : cleanupStep t y = t := by
      unfold cleanupStep
      rw [if_neg]
      rintro ⟨hy, hemp⟩
      rw [h y hy] at hemp
      exact absurd hemp (by simp)
    rw [hstep, ih]

theorem cleanup_root (t : Tree) (h : [] ∉ t.dirs) : [] ∉ (cleanup t).dirs :=
  fun hc => h (cleanup_dirs_subset t _ hc)

/-! ## Merge-level characterization -/

/-- An execution environment agreeing with the planning-time stage inventory
and with no per-operation failure: the normal case of a merge. -/
structure GoodEnv (env : ExecEnv) (stage_map : Inv) : Prop where
  stageAt_eq : ∀ r, env.stageAt r = lookupInv stage_map r
  noCopyRaise : ∀ r, env.copyRaises r = false
  noUnlinkRaise : ∀ r, env.unlinkRaises r = false

theorem merge_ok_char (env : ExecEnv) (stage_map : Inv) (install : Tree)
    (pres : List String) (hcr : ∀ r, env.copyRaises r = false) :
    ∃ s', execOps env (planOps stage_map install.files pres).length
        (planOps stage_map install.files pres) 0 ⟨install, [], []⟩ = .ok s' ∧
      merge_stage_into_install env stage_map install pres =
        .ok ⟨cleanup s'.tree, s'.changed, s'.events⟩ ∧
      s'.tree.files =
        (planOps stage_map install.files pres).foldl (applyOpFiles env) install.files ∧
      s'.tree.dirs =
        (planOps stage_map install.files pres).foldl applyOpDirs install.dirs ∧
      s'.events = mkEvents 0 (planOps stage_map install.files pres).length
        (planOps stage_map install.files pres) := by
  obtain ⟨s', h1, h2, h3, h4⟩ :=
    execOps_ok env (planOps stage_map install.files pres).length hcr
      (planOps stage_map install.files pres) 0 ⟨install, [], []⟩
  refine ⟨s', h1, ?_, h2, h3, by simpa using h4⟩
  simp only [merge_stage_into_install, h1]

/-- Master characterization of a fully successful merge: afterwards a
preserved path holds its old install content, and every other path holds
exactly the stage content (present with the stage hash, or absent). -/
theorem merge_lookup (env : ExecEnv) (stage_map : Inv) (install : Tree)
    (pres : List String) (hσ : keysNodup stage_map) (hτ : keysNodup install.files)
    (hg : GoodEnv env stage_map) :
    ∃ res, merge_stage_into_install env stage_map install pres = .ok res ∧
      keysNodup res.tree.files ∧
      ∀ rel, lookupInv res.tree.files rel =
        if glob_preserved rel pres = true then lookupInv install.files rel
        else lookupInv stage_map rel := by
  obtain ⟨s', h1, hm, h2, h3, h4⟩ :=
    merge_ok_char env stage_map install pres hg.noCopyRaise
  set ops := planOps stage_map install.files pres with hops
  refine ⟨⟨cleanup s'.tree, s'.changed, s'.events⟩, hm, ?_, ?_⟩
  · simp only [cleanup_files, h2]
    exact foldl_applyOpFiles_keysNodup env ops install.files hτ
  intro rel
  have hfiles : (cleanup s'.tree).files = ops.foldl (applyOpFiles env) install.files := by
    rw [cleanup_files, h2]
  by_cases hp : glob_preserved rel pres = true
  · have hnm : rel ∉ ops.map Prod.snd := by
      intro hc
      obtain ⟨op, hop, rfl⟩ := List.mem_map.mp hc
      rw [plan_not_preserved hop] at hp
      exact absurd hp (by simp)
    simp only [hfiles, hp, if_true]
    exact foldl_applyOpFiles_notmem env ops install.files hnm
  · simp only [Bool.not_eq_true] at hp
    simp only [hfiles, hp, Bool.false_eq_true, if_false]
    cases hσr : lookupInv stage_map rel with
    | some h =>
      by_cases hτr : lookupInv install.files rel = some h
      · have hnm : rel ∉ ops.map Prod.snd := by
          intro hc
          obtain ⟨op, hop, rfl⟩ := List.mem_map.mp hc
          rcases (plan_mem_elim hop).2 with ⟨_, h', hmem, hlk⟩ | ⟨_, _, hnone⟩
          · have : lookupInv stage_map op.2 = some h' := mem_lookupInv hmem hσ
            rw [hσr] at this
            injection this with hh
            rw [hh] at hτr
            exact hlk hτr
          · rw [hσr] at hnone
            exact absurd hnone (by simp)
        rw [foldl_applyOpFiles_notmem env ops install.files hnm, hτr]
      · have hw : (Phase.write, rel) ∈ ops :=
          plan_write_intro (lookupInv_mem hσr) hp hτr
        obtain ⟨l1, l2, hsplit, hl1, hl2⟩ :=
          nodup_decomp hw (plan_rels_nodup hσ hτ)
        rw [hsplit]
        exact foldl_applyOpFiles_write env l1 l2 install.files hl2
          ((hg.stageAt_eq rel).trans hσr)
    | none =>
      cases hτr : lookupInv install.files rel with
      | none =>
        have hnm : rel ∉ ops.map Prod.snd := by
          intro hc
          obtain ⟨op, hop, rfl⟩ := List.mem_map.mp hc
          rcases (plan_mem_elim hop).2 with ⟨_, h', hmem, _⟩ | ⟨_, hmemτ, _⟩
          · have : lookupInv stage_map op.2 = some h' := mem_lookupInv hmem hσ
            rw [hσr] at this
            exact absurd this (by simp)
          · exact (lookupInv_eq_none_iff.mp hτr) hmemτ
        rw [foldl_applyOpFiles_notmem env ops install.files hnm, hτr]
      | some hv =>
        have hd : (Phase.delete, rel) ∈ ops :=
          plan_delete_intro (lookupInv_mem hτr) hσr hp
        obtain ⟨l1, l2, hsplit, hl1, hl2⟩ :=
          nodup_decomp hd (plan_rels_nodup hσ hτ)
        rw [hsplit]
        exact foldl_applyOpFiles_delete env l1 l2 install.files hl1 hl2
          (hg.noUnlinkRaise rel) (by simp [hτr])

/-! ## Claim theorems -/

/-- C3: `safe_join` compares plain strings with `startswith` and therefore
accepts an entry that resolves OUTSIDE the destination root whenever the
escaping path's string merely extends the root's string: with root
`/cache/stage/ab`, the entry `../abc/evil.txt` resolves to
`/cache/stage/abc/evil.txt` — not under the root — yet is accepted, so the
file is written outside the destination root. The claim's own examples
(`../../evil.txt` and an absolute name) are rejected, but the universal
statement "any entry whose name resolves outside the destination root is
rejected … no file is ever written outside the destination root" is false. -/
theorem safe_join_sibling_escape :
    safe_join ["cache", "stage", "ab"] ("../abc/evil.txt") =
        .ok ["cache", "stage", "abc", "evil.txt"] ∧
    isUnder ["cache", "stage", "ab"] ["cache", "stage", "abc", "evil.txt"] = false ∧
    safe_join ["cache", "stage", "ab"] ("../../evil.txt") =
        .error ("Blocked path traversal while extracting") ∧
    safe_join ["cache", "stage", "ab"] ("/abs/evil.txt") =
        .error ("Blocked path traversal while extracting") :=
  ⟨rfl, rfl, rfl, rfl⟩

/-- C6: in `do_update`'s existing-install branch, `create_backup` runs
strictly before the merge; the backup produced is exactly the complete
pre-merge install inventory, and a backup failure propagates so that
`merge_stage_into_install` is never invoked and the install tree is left
unmutated. -/
theorem do_update_backup_before_merge (env : ExecEnv) (stage_map : Inv)
    (install : Tree) (pres : List String) :
    do_update_existing env stage_map install pres true = .error () ∧
    do_update_existing env stage_map install pres false =
      .ok (install.files, merge_stage_into_install env stage_map install pres) :=
  ⟨rfl, rfl⟩

theorem wldCandidates_mem {t : Tree} {p : RelPath}
    (hp : p ∈ t.files.map Prod.fst ++ t.dirs)
    (hwld : rglobIsWld (lastName p) = true) :
    (p.length, p.dropLast) ∈ wldCandidates t := by
  refine List.mem_filterMap.mpr ⟨p, hp, ?_⟩
  simp [hwld]

/-- C8 counterexample: `rglob("*.wld")` reports *directories* too (the
subtree scan at zip_merge.py lines 92-98 has no `is_file()` check), so a
directory named `w.wld` at depth 1 out-ranks the only marker *file*
`sub/e.wld` at depth 2: `find_episode_root` returns the parent of that
directory — the root `[]` — and not `["sub"]`, the parent of the shallowest
marker file, which the claim demands. -/
theorem find_episode_root_dir_shadows_file :
    find_episode_root ⟨[(["sub", "e.wld"], "h")], [["w.wld"], ["sub"]]⟩ = [] ∧
    (∀ fh ∈ (⟨[(["sub", "e.wld"], "h")], [["w.wld"], ["sub"]]⟩ : Tree).files,
      ¬(fh.1.length = 1 ∧ suffixIsWld (lastName fh.1) = true)) ∧
    (∀ fh ∈ (⟨[(["sub", "e.wld"], "h")], [["w.wld"], ["sub"]]⟩ : Tree).files,
      rglobIsWld (lastName fh.1) = true → fh.1.dropLast = ["sub"]) ∧
    rglobIsWld (lastName (["sub", "e.wld"] : RelPath)) = true ∧
    ([] : RelPath) ≠ ["sub"] :=
  ⟨by decide, by decide, by decide, by decide, by decide⟩

/-- C8 (amended): `find_episode_root` returns the root when the root
directly contains a marker (`.wld`) file; otherwise it returns the parent
directory of a shallowest `*.wld`-named entry found anywhere in the subtree,
where — exactly as `rglob("*.wld")` reports — entries cover files and
directories alike, ranked by depth (number of path segments) ascending; and
when nothing in the subtree matches `*.wld`, it returns the original root. -/
theorem find_episode_root_amended (t : Tree) :
    ((∃ fh ∈ t.files, fh.1.length = 1 ∧ suffixIsWld (lastName fh.1) = true) →
      find_episode_root t = []) ∧
    ((∀ fh ∈ t.files, ¬(fh.1.length = 1 ∧ suffixIsWld (lastName fh.1) = true)) →
      (∀ p ∈ t.files.map Prod.fst ++ t.dirs, rglobIsWld (lastName p) = false) →
      find_episode_root t = []) ∧
    ((∀ fh ∈ t.files, ¬(fh.1.length = 1 ∧ suffixIsWld (lastName fh.1) = true)) →
      ∀ p0 ∈ t.files.map Prod.fst ++ t.dirs, rglobIsWld (lastName p0) = true →
        ∃ p ∈ t.files.map Prod.fst ++ t.dirs, rglobIsWld (lastName p) = true ∧
          find_episode_root t = p.dropLast ∧
          ∀ p' ∈ t.files.map Prod.fst ++ t.dirs, rglobIsWld (lastName p') = true →
            p.length ≤ p'.length) := by
  refine ⟨?_, ?_, ?_⟩
  · rintro ⟨fh, hfh, hlen, hwld⟩
    unfold find_episode_root
    rw [if_pos]
    exact List.any_eq_true.mpr ⟨fh, hfh, by simp [hlen, hwld]⟩
  · intro htop hnone
    unfold find_episode_root
    rw [if_neg]
    · have hcands : wldCandidates t = [] := by
        rw [wldCandidates, List.filterMap_eq_nil_iff]
        intro p hp
        simp [hnone p hp]
      simp [hcands]
    · rw [List.any_eq_true]
      rintro ⟨fh, hfh, hcond⟩
      simp only [Bool.and_eq_true, decide_eq_true_eq] at hcond
      exact htop fh hfh hcond
  · intro htop p0 hp0 hwld0
    have hmem0 : (p0.length, p0.dropLast) ∈ wldCandidates t :=
      wldCandidates_mem hp0 hwld0
    have hperm := List.perm_insertionSort depthLE (wldCandidates t)
    unfold find_episode_root
    rw [if_neg]
    · cases hsort : List.insertionSort depthLE (wldCandidates t) with
      | nil =>
        exfalso
        rw [hsort] at hperm
        rw [hperm.symm.eq_nil] at hmem0
        simp at hmem0
      | cons c rest =>
        have hcmem : c ∈ wldCandidates t := by
          rw [← hperm.mem_iff, hsort]
          simp
        have hmin : ∀ y ∈ wldCandidates t, c.1 ≤ y.1 := by
          intro y hy
          have hysort : y ∈ c :: rest := by
            rw [← hsort, hperm.mem_iff]
            exact hy
          rcases List.mem_cons.mp hysort with rfl | hyr
          · exact Nat.le_refl _
          · have hsorted := List.sorted_insertionSort depthLE (wldCandidates t)
            rw [hsort] at hsorted
            exact (List.pairwise_cons.mp hsorted).1 y hyr
        obtain ⟨p, hpmem, heq⟩ := List.mem_filterMap.mp hcmem
        by_cases hpw : rglobIsWld (lastName p) = true
        · simp only [hpw, if_true] at heq
          injection heq with heq'
          refine ⟨p, hpmem, hpw, ?_, ?_⟩
          · rw [← heq']
          · intro p' hp' hwld'
            have hc' := hmin _ (wldCandidates_mem hp' hwld')
            rw [← heq'] at hc'
            exact hc'
        · simp [hpw] at heq
    · rw [List.any_eq_true]
      rintro ⟨fh, hfh, hcond⟩
      simp only [Bool.and_eq_true, decide_eq_true_eq] at hcond
      exact htop fh hfh hcond

/-- Witness for the amended C8, on the spec's concrete scenario: a tree
holding only `world/level1.wld` has effective root directory `world`. -/
theorem find_episode_root_amended_witness :
    (∀ fh ∈ (⟨[(["world", "level1.wld"], "h")], [["world"]]⟩ : Tree).files,
      ¬(fh.1.length = 1 ∧ suffixIsWld (lastName fh.1) = true)) ∧
    find_episode_root ⟨[(["world", "level1.wld"], "h")], [["world"]]⟩ = ["world"] := by
  refine ⟨by decide, ?_⟩
  obtain ⟨p, hp, hwld, heq, hmin⟩ :=
    (find_episode_root_amended ⟨[(["world", "level1.wld"], "h")], [["world"]]⟩).2.2
      (by decide) ["world", "level1.wld"] (by decide) (by decide)
  have hp' : p = ["world", "level1.wld"] := by
    have hcases : p = ["world", "level1.wld"] ∨ p = ["world"] := by simpa using hp
    rcases hcases with h | h
    · exact h
    · rw [h] at hwld
      exact absurd hwld (by decide)
  rw [heq, hp']
  rfl

/-- Environment of a normal run: the planning inventory is also the
execution-time stage, no filesystem call raises, the callback succeeds. -/
def mkGoodEnv (stage_map : Inv) : ExecEnv :=
  ⟨fun r => lookupInv stage_map r, fun _ => false, fun _ => false, fun _ => .ok ()⟩

theorem mkGoodEnv_good (stage_map : Inv) : GoodEnv (mkGoodEnv stage_map) stage_map :=
  ⟨fun _ => rfl, fun _ => rfl, fun _ => rfl⟩

/-- C7: with a callback supplied and no copy exception, the merge completes
and the callback is invoked exactly once per executed operation, in plan
order, carrying the phase and relative path of that operation, the 1-based
strictly increasing index `1, 2, …, total`, and the fixed total equal to the
plan size — independent of delete failures or vanished sources (the events
are a function of the plan alone). An exception raised by the callback is
caught: the merge result does not depend on the callback at all. -/
theorem merge_progress_events (env : ExecEnv) (stage_map : Inv) (install : Tree)
    (pres : List String) (hcr : ∀ r, env.copyRaises r = false) :
    ∃ res, merge_stage_into_install env stage_map install pres = .ok res ∧
      res.events.map (fun e => (e.phase, e.rel)) = planOps stage_map install.files pres ∧
      res.events.map Event.idx =
        List.range' 1 (planOps stage_map install.files pres).length ∧
      (∀ e ∈ res.events, e.total = (planOps stage_map install.files pres).length) ∧
      ∀ cb', merge_stage_into_install { env with cb := cb' } stage_map install pres =
        merge_stage_into_install env stage_map install pres := by
  obtain ⟨s', h1, hm, h2, h3, h4⟩ := merge_ok_char env stage_map install pres hcr
  refine ⟨⟨cleanup s'.tree, s'.changed, s'.events⟩, hm, ?_, ?_, ?_, ?_⟩
  · show s'.events.map _ = _
    rw [h4, mkEvents_map_op]
  · show s'.events.map _ = _
    rw [h4, mkEvents_map_idx]
  · intro e he
    exact mkEvents_total _ _ _ e (h4 ▸ he)
  · intro cb'
    simp only [merge_stage_into_install]
    rw [execOps_env_ext { env with cb := cb' } env rfl rfl rfl]

/-- Witness for C7 on a one-write merge. -/
theorem merge_progress_events_witness :
    (∀ r : RelPath, (mkGoodEnv [(["a.txt"], "1")]).copyRaises r = false) ∧
    (∃ res, merge_stage_into_install (mkGoodEnv [(["a.txt"], "1")])
        [(["a.txt"], "1")] ⟨[], []⟩ [] = .ok res ∧
      res.events.map (fun e => (e.phase, e.rel)) =
        planOps [(["a.txt"], "1")] (Tree.files ⟨[], []⟩) [] ∧
      res.events.map Event.idx =
        List.range' 1 (planOps [(["a.txt"], "1")] (Tree.files ⟨[], []⟩) []).length ∧
      (∀ e ∈ res.events,
        e.total = (planOps [(["a.txt"], "1")] (Tree.files ⟨[], []⟩) []).length) ∧
      ∀ cb', merge_stage_into_install { mkGoodEnv [(["a.txt"], "1")] with cb := cb' }
          [(["a.txt"], "1")] ⟨[], []⟩ [] =
        merge_stage_into_install (mkGoodEnv [(["a.txt"], "1")])
          [(["a.txt"], "1")] ⟨[], []⟩ []) :=
  ⟨fun _ => rfl,
    merge_progress_events (mkGoodEnv [(["a.txt"], "1")]) [(["a.txt"], "1")] ⟨[], []⟩ []
      (fun _ => rfl)⟩

/-- C10: a planned write whose stage source no longer exists at execution
time is skipped silently — the merge still completes, nothing is written for
that path (its install entry is unchanged), the path is missing from the
returned ChangeSet, yet the operation still consumes its progress slot: the
callback is invoked for it and the reported total (= plan size) is
unchanged. -/
theorem merge_write_missing_source (env : ExecEnv) (stage_map : Inv) (install : Tree)
    (pres : List String) {rel : RelPath}
    (hσ : keysNodup stage_map) (hτ : keysNodup install.files)
    (hcr : ∀ r, env.copyRaises r = false)
    (hmem : (Phase.write, rel) ∈ planOps stage_map install.files pres)
    (hsa : env.stageAt rel = none) :
    ∃ res, merge_stage_into_install env stage_map install pres = .ok res ∧
      rel ∉ res.changed ∧
      lookupInv res.tree.files rel = lookupInv install.files rel ∧
      res.events.length = (planOps stage_map install.files pres).length ∧
      ∃ i, (⟨Phase.write, rel, i, (planOps stage_map install.files pres).length⟩ : Event)
        ∈ res.events := by
  obtain ⟨s', h1, hm, h2, h3, h4⟩ := merge_ok_char env stage_map install pres hcr
  have hu := execOps_write_missing env (planOps stage_map install.files pres).length
    (planOps stage_map install.files pres) 0 ⟨install, [], []⟩
    (plan_rels_nodup hσ hτ) hmem hsa
  rw [h1] at hu
  refine ⟨⟨cleanup s'.tree, s'.changed, s'.events⟩, hm, ?_, ?_, ?_, ?_⟩
  · exact hu.2.1 (by simp)
  · show lookupInv (cleanup s'.tree).files rel = _
    rw [cleanup_files]
    exact hu.1
  · show s'.events.length = _
    rw [h4, mkEvents_length]
  · show ∃ i, _ ∈ s'.events
    rw [h4]
    exact mkEvents_mem_of _ _ 0 _ rel hmem

/-- Environment for the C10 witness: the planned source vanished. -/
def envMissingSrc : ExecEnv :=
  ⟨fun _ => none, fun _ => false, fun _ => false, fun _ => .ok ()⟩

/-- Witness for C10: one planned write whose source is gone. -/
theorem merge_write_missing_source_witness :
    keysNodup ([(["a.txt"], "1")] : Inv) ∧ keysNodup (Tree.files ⟨[], []⟩) ∧
    (∀ r : RelPath, envMissingSrc.copyRaises r = false) ∧
    ((Phase.write, ["a.txt"]) ∈ planOps [(["a.txt"], "1")] (Tree.files ⟨[], []⟩) []) ∧
    envMissingSrc.stageAt ["a.txt"] = none ∧
    (∃ res, merge_stage_into_install envMissingSrc [(["a.txt"], "1")] ⟨[], []⟩ [] =
        .ok res ∧
      ["a.txt"] ∉ res.changed ∧
      lookupInv res.tree.files ["a.txt"] = lookupInv (Tree.files ⟨[], []⟩) ["a.txt"] ∧
      res.events.length =
        (planOps [(["a.txt"], "1")] (Tree.files ⟨[], []⟩) []).length ∧
      ∃ i, (⟨Phase.write, ["a.txt"], i,
          (planOps [(["a.txt"], "1")] (Tree.files ⟨[], []⟩) []).length⟩ : Event)
        ∈ res.events) :=
  ⟨by decide, by decide, fun _ => rfl, by decide, rfl,
    merge_write_missing_source envMissingSrc [(["a.txt"], "1")] ⟨[], []⟩ []
      (by decide) (by decide) (fun _ => rfl) (by decide) rfl⟩

/-- Stage inventory used by the C4 counterexample. -/
def stageAborts : Inv := [(["a.txt"], "1"), (["b.txt"], "2")]

/-- Environment in which copying `a.txt` raises an exception. -/
def envAborts : ExecEnv :=
  ⟨fun r => lookupInv stageAborts r, fun r => decide (r = ["a.txt"]), fun _ => false,
    fun _ => .ok ()⟩

/-- C4 counterexample: with two planned writes, an exception from the first
file copy (which the code does not wrap in `try`) aborts the whole merge —
the exception propagates out of `merge_stage_into_install`, the remaining
planned operation for `b.txt` is never executed, nothing enters the
ChangeSet, and no progress is reported. This refutes "the failure of an
individual file copy … does not abort the remaining planned operations". -/
theorem merge_copy_failure_aborts :
    planOps stageAborts [] [] = [(Phase.write, ["a.txt"]), (Phase.write, ["b.txt"])] ∧
    ∃ e, merge_stage_into_install envAborts stageAborts ⟨[], []⟩ [] = .error e ∧
      e.changed = [] ∧ e.events = [] ∧ lookupInv e.tree.files ["b.txt"] = none :=
  ⟨rfl, ⟨⟨[], []⟩, [], []⟩, rfl, rfl, rfl, rfl⟩

/-- C4 amended: an individual *delete* failure, and a write whose stage
source has vanished, do not abort the merge: execution continues through the
whole plan (one progress event per planned operation), the failed operation
is excluded from the returned ChangeSet, and the file is left as it was.
(An exception thrown by the copy itself, by contrast, aborts the merge: see
the counterexample.) -/
theorem merge_best_effort_amended (env : ExecEnv) (stage_map : Inv) (install : Tree)
    (pres : List String) (hσ : keysNodup stage_map) (hτ : keysNodup install.files)
    (hcr : ∀ r, env.copyRaises r = false) :
    ∃ res, merge_stage_into_install env stage_map install pres = .ok res ∧
      res.events.length = (planOps stage_map install.files pres).length ∧
      (∀ rel, (Phase.delete, rel) ∈ planOps stage_map install.files pres →
        env.unlinkRaises rel = true →
        rel ∉ res.changed ∧
          lookupInv res.tree.files rel = lookupInv install.files rel) ∧
      (∀ rel, (Phase.write, rel) ∈ planOps stage_map install.files pres →
        env.stageAt rel = none → rel ∉ res.changed) := by
  obtain ⟨s', h1, hm, h2, h3, h4⟩ := merge_ok_char env stage_map install pres hcr
  refine ⟨⟨cleanup s'.tree, s'.changed, s'.events⟩, hm, ?_, ?_, ?_⟩
  · show s'.events.length = _
    rw [h4, mkEvents_length]
  · intro rel hmem hu
    have hunt := execOps_delete_raises env (planOps stage_map install.files pres).length
      (planOps stage_map install.files pres) 0 ⟨install, [], []⟩
      (plan_rels_nodup hσ hτ) hmem hu
    rw [h1] at hunt
    refine ⟨hunt.2.1 (by simp), ?_⟩
    show lookupInv (cleanup s'.tree).files rel = _
    rw [cleanup_files]
    exact hunt.1
  · intro rel hmem hsa
    have hunt := execOps_write_missing env (planOps stage_map install.files pres).length
      (planOps stage_map install.files pres) 0 ⟨install, [], []⟩
      (plan_rels_nodup hσ hτ) hmem hsa
    rw [h1] at hunt
    exact hunt.2.1 (by simp)

/-- Environment for the C4 witness: unlinking `c.txt` raises. -/
def envUnlinkFails : ExecEnv :=
  ⟨fun _ => none, fun _ => false, fun r => decide (r = ["c.txt"]), fun _ => .ok ()⟩

/-- Witness for the amended C4: one planned delete whose `unlink` raises. -/
theorem merge_best_effort_amended_witness :
    keysNodup ([] : Inv) ∧ keysNodup (Tree.files ⟨[(["c.txt"], "3")], []⟩) ∧
    (∀ r : RelPath, envUnlinkFails.copyRaises r = false) ∧
    (∃ res, merge_stage_into_install envUnlinkFails [] ⟨[(["c.txt"], "3")], []⟩ [] =
        .ok res ∧
      res.events.length =
        (planOps [] (Tree.files ⟨[(["c.txt"], "3")], []⟩) []).length ∧
      (∀ rel, (Phase.delete, rel) ∈ planOps [] (Tree.files ⟨[(["c.txt"], "3")], []⟩) [] →
        envUnlinkFails.unlinkRaises rel = true →
        rel ∉ res.changed ∧
          lookupInv res.tree.files rel =
            lookupInv (Tree.files ⟨[(["c.txt"], "3")], []⟩) rel) ∧
      (∀ rel, (Phase.write, rel) ∈ planOps [] (Tree.files ⟨[(["c.txt"], "3")], []⟩) [] →
        envUnlinkFails.stageAt rel = none → rel ∉ res.changed)) :=
  ⟨by decide, by decide, fun _ => rfl,
    merge_best_effort_amended envUnlinkFails [] ⟨[(["c.txt"], "3")], []⟩ []
      (by decide) (by decide) (fun _ => rfl)⟩

/-- C1: a path matching a preserve pattern is excluded from both planning
directions (no write and no delete is ever scheduled for it); for any
execution environment — merge completed or aborted — its install entry is
unchanged and it never enters the ChangeSet; and after a completed merge
every ancestor directory of a preserved file that is present still exists:
empty-directory cleanup never removes a directory by virtue of its
containing a preserved path. -/
theorem merge_preserve_invariant (env : ExecEnv) (stage_map : Inv) (install : Tree)
    (pres : List String) {p : RelPath}
    (hwf : WF install) (hσne : ∀ q ∈ stage_map.map Prod.fst, q ≠ [])
    (hp : glob_preserved p pres = true) :
    (∀ op ∈ planOps stage_map install.files pres, op.2 ≠ p) ∧
    (∀ res, merge_stage_into_install env stage_map install pres = .ok res →
      lookupInv res.tree.files p = lookupInv install.files p ∧ p ∉ res.changed ∧
      ∀ h, lookupInv install.files p = some h →
        ∀ d ∈ strictPrefixes p, d ∈ res.tree.dirs) ∧
    (∀ e, merge_stage_into_install env stage_map install pres = .error e →
      lookupInv e.tree.files p = lookupInv install.files p ∧ p ∉ e.changed) := by
  have hnp : ∀ op ∈ planOps stage_map install.files pres, op.2 ≠ p := by
    intro op hop hc
    have h := plan_not_preserved hop
    rw [hc, hp] at h
    exact absurd h (by simp)
  have hnm : p ∉ (planOps stage_map install.files pres).map Prod.snd := by
    intro hc
    obtain ⟨op, hop, heq⟩ := List.mem_map.mp hc
    exact hnp op hop heq
  have hu := execOps_untouched env (planOps stage_map install.files pres).length
    (planOps stage_map install.files pres) 0 ⟨install, [], []⟩ hnm
  refine ⟨hnp, ?_, ?_⟩
  · intro res hres
    cases hex : execOps env (planOps stage_map install.files pres).length
        (planOps stage_map install.files pres) 0 ⟨install, [], []⟩ with
    | error e =>
      simp only [merge_stage_into_install, hex] at hres
      exact absurd hres (by simp)
    | ok s' =>
      simp only [merge_stage_into_install, hex] at hres
      injection hres with hres'
      subst hres'
      rw [hex] at hu
      simp only [outState] at hu
      refine ⟨?_, hu.2.1 (by simp), ?_⟩
      · show lookupInv (cleanup s'.tree).files p = _
        rw [cleanup_files]
        exact hu.1
      · intro h hh d hd
        have hkey : p ∈ s'.tree.files.map Prod.fst := by
          by_contra hc
          have hnone := lookupInv_eq_none_iff.mpr hc
          rw [hu.1, hh] at hnone
          exact absurd hnone (by simp)
        have hwf' : WF s'.tree := by
          have hw := execOps_WF env (planOps stage_map install.files pres).length
            (planOps stage_map install.files pres) 0 ⟨install, [], []⟩ hwf
            (plan_rels_ne_nil hσne hwf.filesNonempty)
          rwa [hex] at hw
        exact cleanup_keeps s'.tree hwf' hkey hd
  · intro e he
    cases hex : execOps env (planOps stage_map install.files pres).length
        (planOps stage_map install.files pres) 0 ⟨install, [], []⟩ with
    | error e' =>
      simp only [merge_stage_into_install, hex] at he
      injection he with he'
      subst he'
      rw [hex] at hu
      simp only [outState] at hu
      exact ⟨hu.1, hu.2.1 (by simp)⟩
    | ok s' =>
      simp only [merge_stage_into_install, hex] at he
      exact absurd he (by simp)

/-- Stage inventory of the spec's concrete merge scenario. -/
def stageSpec : Inv := [(["a.txt"], "1"), (["sub", "b.txt"], "2")]

/-- Install tree of the spec's concrete merge scenario. -/
def installSpec : Tree :=
  ⟨[(["a.txt"], "0"), (["sub", "b.txt"], "2"), (["c.txt"], "3")], [["sub"]]⟩

/-- Witness for C1: `c.txt` is preserved and untouched even though it is
absent from stage. -/
theorem merge_preserve_invariant_witness :
    WF installSpec ∧ (∀ q ∈ stageSpec.map Prod.fst, q ≠ []) ∧
    glob_preserved ["c.txt"] ["c.txt"] = true ∧
    ((∀ op ∈ planOps stageSpec installSpec.files ["c.txt"], op.2 ≠ ["c.txt"]) ∧
     (∀ res, merge_stage_into_install (mkGoodEnv stageSpec) stageSpec installSpec
          ["c.txt"] = .ok res →
        lookupInv res.tree.files ["c.txt"] = lookupInv installSpec.files ["c.txt"] ∧
        ["c.txt"] ∉ res.changed ∧
        ∀ h, lookupInv installSpec.files ["c.txt"] = some h →
          ∀ d ∈ strictPrefixes ["c.txt"], d ∈ res.tree.dirs) ∧
     (∀ e, merge_stage_into_install (mkGoodEnv stageSpec) stageSpec installSpec
          ["c.txt"] = .error e →
        lookupInv e.tree.files ["c.txt"] = lookupInv installSpec.files ["c.txt"] ∧
        ["c.txt"] ∉ e.changed)) :=
  ⟨by constructor <;> decide, by decide, by decide,
    merge_preserve_invariant (mkGoodEnv stageSpec) stageSpec installSpec ["c.txt"]
      (by constructor <;> decide) (by decide) (by decide)⟩

/-- C2: after a merge in which no individual operation fails, every
non-preserved stage path is present in the install with the stage's content
hash, and every non-preserved path that was in the install inventory but is
absent from stage no longer exists. -/
theorem merge_completeness (env : ExecEnv) (stage_map : Inv) (install : Tree)
    (pres : List String) (hσ : keysNodup stage_map) (hτ : keysNodup install.files)
    (hg : GoodEnv env stage_map) :
    ∃ res, merge_stage_into_install env stage_map install pres = .ok res ∧
      (∀ rel h, lookupInv stage_map rel = some h → glob_preserved rel pres = false →
        lookupInv res.tree.files rel = some h) ∧
      (∀ rel, rel ∈ install.files.map Prod.fst → lookupInv stage_map rel = none →
        glob_preserved rel pres = false → lookupInv res.tree.files rel = none) := by
  obtain ⟨res, hm, hnd, hlk⟩ := merge_lookup env stage_map install pres hσ hτ hg
  refine ⟨res, hm, ?_, ?_⟩
  · intro rel h hσr hp
    rw [hlk rel, if_neg (by simp [hp]), hσr]
  · intro rel hmem hσr hp
    rw [hlk rel, if_neg (by simp [hp]), hσr]

/-- Witness for C2, on the spec's concrete scenario. -/
theorem merge_completeness_witness :
    keysNodup stageSpec ∧ keysNodup installSpec.files ∧
    GoodEnv (mkGoodEnv stageSpec) stageSpec ∧
    (∃ res, merge_stage_into_install (mkGoodEnv stageSpec) stageSpec installSpec
        ["c.txt"] = .ok res ∧
      (∀ rel h, lookupInv stageSpec rel = some h →
        glob_preserved rel ["c.txt"] = false →
        lookupInv res.tree.files rel = some h) ∧
      (∀ rel, rel ∈ installSpec.files.map Prod.fst → lookupInv stageSpec rel = none →
        glob_preserved rel ["c.txt"] = false →
        lookupInv res.tree.files rel = none)) :=
  ⟨by decide, by decide, mkGoodEnv_good stageSpec,
    merge_completeness (mkGoodEnv stageSpec) stageSpec installSpec ["c.txt"]
      (by decide) (by decide) (mkGoodEnv_good stageSpec)⟩

/-- C9: after a successful merge, no directory strictly under the install
root is left empty — the single bottom-up pass (children before parents, by
descending path-string length) removes every empty directory, cascades
included — and the install root itself (`[]`, never an element of `dirs`) is
never removed. -/
theorem merge_empty_dir_cleanup (env : ExecEnv) (stage_map : Inv) (install : Tree)
    (pres : List String) (hwf : WF install)
    (hσne : ∀ q ∈ stage_map.map Prod.fst, q ≠ [])
    (hcr : ∀ r, env.copyRaises r = false) :
    ∃ res, merge_stage_into_install env stage_map install pres = .ok res ∧
      (∀ d ∈ res.tree.dirs, isEmptyDir res.tree d = false) ∧
      [] ∉ res.tree.dirs := by
  obtain ⟨s', h1, hm, h2, h3, h4⟩ := merge_ok_char env stage_map install pres hcr
  have hwf' : WF s'.tree := by
    have hw := execOps_WF env (planOps stage_map install.files pres).length
      (planOps stage_map install.files pres) 0 ⟨install, [], []⟩ hwf
      (plan_rels_ne_nil hσne hwf.filesNonempty)
    rwa [h1] at hw
  refine ⟨⟨cleanup s'.tree, s'.changed, s'.events⟩, hm, ?_, ?_⟩
  · exact cleanup_no_empty s'.tree hwf'.dirsNodup hwf'.dirsNonempty
  · show [] ∉ (cleanup s'.tree).dirs
    exact cleanup_root s'.tree (fun hc => (hwf'.dirsNonempty [] hc) rfl)

/-- Install tree for the C9 witness: deleting `b/c/f.txt` leaves `b/c`
empty, whose removal in the same pass empties and removes `b` as well. -/
def installCascade : Tree := ⟨[(["b", "c", "f.txt"], "h")], [["b"], ["b", "c"]]⟩

/-- Witness for C9 on a cascading removal; the concrete run also evaluates
to the exact final state, with both directories gone and the root intact. -/
theorem merge_empty_dir_cleanup_witness :
    WF installCascade ∧ (∀ q ∈ ([] : Inv).map Prod.fst, q ≠ []) ∧
    (∀ r : RelPath, (mkGoodEnv []).copyRaises r = false) ∧
    merge_stage_into_install (mkGoodEnv []) [] installCascade [] =
      .ok ⟨⟨[], []⟩, [["b", "c", "f.txt"]],
        [⟨Phase.delete, ["b", "c", "f.txt"], 1, 1⟩]⟩ ∧
    (∃ res, merge_stage_into_install (mkGoodEnv []) [] installCascade [] = .ok res ∧
      (∀ d ∈ res.tree.dirs, isEmptyDir res.tree d = false) ∧
      [] ∉ res.tree.dirs) :=
  ⟨by constructor <;> decide, by decide, fun _ => rfl, rfl,
    merge_empty_dir_cleanup (mkGoodEnv []) [] installCascade []
      (by constructor <;> decide) (by decide) (fun _ => rfl)⟩

/-- C5: merging is idempotent — after a successful merge, a second run with
the same stage and preserve patterns plans an empty operation list, performs
no write or delete, reports no progress events, returns an empty ChangeSet,
and leaves the install tree exactly as it was. -/
theorem merge_idempotent (env : ExecEnv) (stage_map : Inv) (install : Tree)
    (pres : List String) (hwf : WF install) (hσ : keysNodup stage_map)
    (hσne : ∀ q ∈ stage_map.map Prod.fst, q ≠ [])
    (hg : GoodEnv env stage_map) :
    ∃ res, merge_stage_into_install env stage_map install pres = .ok res ∧
      planOps stage_map res.tree.files pres = [] ∧
      merge_stage_into_install env stage_map res.tree pres = .ok ⟨res.tree, [], []⟩ := by
  obtain ⟨res, hm, hndres, hlk⟩ :=
    merge_lookup env stage_map install pres hσ hwf.filesNodup hg
  obtain ⟨s', h1, hm', h2, h3, h4⟩ :=
    merge_ok_char env stage_map install pres hg.noCopyRaise
  rw [hm] at hm'
  injection hm' with hres
  have hplan2 : planOps stage_map res.tree.files pres = [] := by
    rw [planOps]
    refine List.append_eq_nil.mpr ⟨?_, ?_⟩
    · rw [List.filterMap_eq_nil_iff]
      intro fh hfh
      by_cases hpres : glob_preserved fh.1 pres = true
      · simp [hpres]
      · simp only [Bool.not_eq_true] at hpres
        have hσfh : lookupInv stage_map fh.1 = some fh.2 :=
          mem_lookupInv (by simpa using hfh) hσ
        have hre : lookupInv res.tree.files fh.1 = some fh.2 := by
          rw [hlk fh.1, if_neg (by simp [hpres]), hσfh]
        simp [hpres, hre]
    · rw [List.filterMap_eq_nil_iff]
      intro fh hfh
      by_cases hs : lookupInv stage_map fh.1 = none
      · by_cases hpres : glob_preserved fh.1 pres = true
        · simp [hs, hpres]
        · exfalso
          simp only [Bool.not_eq_true] at hpres
          have hsome : lookupInv res.tree.files fh.1 = some fh.2 :=
            mem_lookupInv (by simpa using hfh) hndres
          rw [hlk fh.1, if_neg (by simp [hpres]), hs] at hsome
          exact absurd hsome (by simp)
      · simp [hs]
  have hwfs : WF s'.tree := by
    have hw := execOps_WF env (planOps stage_map install.files pres).length
      (planOps stage_map install.files pres) 0 ⟨install, [], []⟩ hwf
      (plan_rels_ne_nil hσne hwf.filesNonempty)
    rwa [h1] at hw
  have hnoempty : ∀ d ∈ res.tree.dirs, isEmptyDir res.tree d = false := by
    rw [hres]
    exact cleanup_no_empty s'.tree hwfs.dirsNodup hwfs.dirsNonempty
  have hid : cleanup res.tree = res.tree := cleanup_id_of_no_empty res.tree hnoempty
  refine ⟨res, hm, hplan2, ?_⟩
  simp only [merge_stage_into_install, hplan2, execOps]
  rw [hid]

/-- Witness for C5, on the spec's concrete scenario. -/
theorem merge_idempotent_witness :
    WF installSpec ∧ keysNodup stageSpec ∧ (∀ q ∈ stageSpec.map Prod.fst, q ≠ []) ∧
    GoodEnv (mkGoodEnv stageSpec) stageSpec ∧
    (∃ res, merge_stage_into_install (mkGoodEnv stageSpec) stageSpec installSpec
        ["c.txt"] = .ok res ∧
      planOps stageSpec res.tree.files ["c.txt"] = [] ∧
      merge_stage_into_install (mkGoodEnv stageSpec) stageSpec res.tree ["c.txt"] =
        .ok ⟨res.tree, [], []⟩) :=
  ⟨by constructor <;> decide, by decide, by decide, mkGoodEnv_good stageSpec,
    merge_idempotent (mkGoodEnv stageSpec) stageSpec installSpec ["c.txt"]
      (by constructor <;> decide) (by decide) (by decide) (mkGoodEnv_good stageSpec)⟩

end ZipMerge
